import Mathlib

/-!
Shallow embedding of `expense_split_tracker.py` (class `Group` and its
operations) over exact rational arithmetic.  Monetary values are `ℚ`;
Python's `round(x, 2)` is modelled by `round2` (round half-up to two
decimal places).  Python dictionaries keyed by user id are modelled as
insertion-ordered association lists, with `dset` reproducing dictionary
assignment (overwrite the existing key in place, otherwise append) and
`dmodify` reproducing in-place augmented assignment.  Fallible methods
return an `Except Err _` result *together with* the group state after the
call, because the Python code mutates `self` in place and an exception
can leave behind any mutations already performed.
-/

namespace ExpenseSplit

/-- Rounding of a rational to 2 decimal places (round half-up), modelling
Python's `round(x, 2)` applied to monetary values.  Stated with `Rat.floor`
so that concrete instances evaluate; `round2_eq_round` identifies it with
`round` of the scaled value. -/
def round2 (x : ℚ) : ℚ := ((x * 100 + 1 / 2).floor : ℚ) / 100

/-- The floating-point tolerance `1e-9` appearing in the source. -/
def eps : ℚ := 1 / 1000000000

/-- A value is a whole number of cents (it is its own 2-decimal rounding). -/
def Dec2 (x : ℚ) : Prop := round2 x = x

instance (x : ℚ) : Decidable (Dec2 x) := inferInstanceAs (Decidable (round2 x = x))

/-- Transaction record (`Transaction` dataclass); the uuid field is omitted
as no claim refers to it. -/
structure Transaction where
  fromUser : Option String
  toUser : Option String
  amount : ℚ
  currency : String
  note : String
deriving DecidableEq

/-- Expense record (`Expense` dataclass); the uuid field is omitted. -/
structure Expense where
  description : String
  amount : ℚ
  currency : String
  splitType : String
  shares : List (String × ℚ)
  paidBy : Option String
deriving DecidableEq

/-- Group state (`Group` class): per-user balances as an insertion-ordered
association list (the `users` dict keeps only the mutable balance; name and
per-user currency play no role in any operation), the expense log and the
transaction log.  The `name` and uuid fields are omitted. -/
structure Group where
  currency : String
  users : List (String × ℚ)
  expenses : List Expense
  transactions : List Transaction
deriving DecidableEq

/-- The error taxonomy of the spec; the Python code raises `ValueError`
with a distinguishing message for each of these. -/
inductive Err
  | invalidSplit
  | currencyMismatch
  | unknownUser
  | invalidAmount
  | overSettlement
  | nothingOwed
deriving DecidableEq

deriving instance DecidableEq for Except

/-- Dictionary lookup on an association list (first matching key). -/
def dlookup (k : String) : List (String × ℚ) → Option ℚ
  | [] => none
  | (k', v) :: rest => if k' = k then some v else dlookup k rest

/-- Membership test `k in dict`. -/
def memKey (k : String) (l : List (String × ℚ)) : Bool := (dlookup k l).isSome

/-- Dictionary assignment `d[k] = v`: overwrite the existing entry in place,
otherwise append a new entry (Python 3.7+ insertion order). -/
def dset (k : String) (v : ℚ) : List (String × ℚ) → List (String × ℚ)
  | [] => [(k, v)]
  | (k', v') :: rest => if k' = k then (k, v) :: rest else (k', v') :: dset k v rest

/-- In-place update `d[k] = f d[k]` (no-op on a missing key; every use site
has already established that the key is present). -/
def dmodify (k : String) (f : ℚ → ℚ) : List (String × ℚ) → List (String × ℚ)
  | [] => []
  | (k', v) :: rest => if k' = k then (k', f v) :: rest else (k', v) :: dmodify k f rest

/-- Sum of the values of an association list (`sum(d.values())`). -/
def sumVals (l : List (String × ℚ)) : ℚ := (l.map Prod.snd).sum

/-- Python's `str.lower()` (character-wise lowercasing), stated structurally
over the character list so that concrete instances evaluate. -/
def lowerString (s : String) : String := ⟨s.data.map Char.toLower⟩

/-- `Group.__init__`: fresh group with the given home currency. -/
def mkGroup (currency : String) : Group := ⟨currency, [], [], []⟩

/-- `Group.add_user`: insert a fresh user with balance `0.0`.  The uuid is
modelled as a caller-chosen identifier string. -/
def addUser (g : Group) (uid : String) : Group :=
  { g with users := g.users ++ [(uid, 0)] }

/-- The equal-split base shares: `share = round(amount / len(users), 2)`
assigned to every listed user by dictionary assignment. -/
def equalBase (amount : ℚ) (us : List String) : List (String × ℚ) :=
  us.foldl (fun s u => dset u (round2 (amount / us.length)) s) []

/-- The percentage-split base shares:
`shares[uid] = round(amount * (pct / 100.0), 2)` for each mapping entry. -/
def pctBase (amount : ℚ) (pcts : List (String × ℚ)) : List (String × ℚ) :=
  pcts.foldl (fun s q => dset q.1 (round2 (amount * (q.2 / 100))) s) []

/-- The share-computation phase of `Group.add_expense` (lines 58-93 of the
source): strategy dispatch, split validation, base shares and the
leftover-cent reconciliation applied to the last participant. -/
def computeShares (amount : ℚ) (splitType : String) (users : Option (List String))
    (exactAmounts percentages : Option (List (String × ℚ))) :
    Except Err (List (String × ℚ)) :=
  if splitType = "equal" then
    match users with
    | none => .error .invalidSplit
    | some [] => .error .invalidSplit
    | some (u :: us') =>
      let shares := equalBase amount (u :: us')
      let totalAssigned := sumVals shares
      if totalAssigned ≠ round2 amount then
        .ok (dmodify ((u :: us').getLast (List.cons_ne_nil u us'))
              (fun v => v + round2 (amount - totalAssigned)) shares)
      else .ok shares
  else if splitType = "exact" then
    match exactAmounts with
    | none => .error .invalidSplit
    | some [] => .error .invalidSplit
    | some ex =>
      let total := round2 (sumVals ex)
      if eps < |total - amount| then .error .invalidSplit
      else .ok (ex.map (fun p => (p.1, round2 p.2)))
  else if splitType = "percentage" then
    match percentages with
    | none => .error .invalidSplit
    | some [] => .error .invalidSplit
    | some (p :: ps) =>
      let totalPercent := round2 (sumVals (p :: ps))
      if eps < |totalPercent - 100| then .error .invalidSplit
      else
        let shares := pctBase amount (p :: ps)
        let totalAssigned := sumVals shares
        if totalAssigned ≠ round2 amount then
          .ok (dmodify ((p :: ps).getLast (List.cons_ne_nil p ps)).1
                (fun v => v + round2 (amount - totalAssigned)) shares)
        else .ok shares
  else .error .invalidSplit

/-- The balance-application loop of `add_expense` (lines 99-102): walk the
share mapping in order, raising on the first unknown user id; mutations
performed before the raise are kept, so the loop returns the (possibly
partially updated) users list together with the optional error. -/
def applySharesLoop : List (String × ℚ) → List (String × ℚ) →
    List (String × ℚ) × Option Err
  | [], users => (users, none)
  | (uid, amt) :: rest, users =>
    if memKey uid users then
      applySharesLoop rest (dmodify uid (fun b => round2 (b + amt)) users)
    else (users, some .unknownUser)

/-- The application phase of `add_expense` (lines 95-112 of the source),
entered once the shares have been computed: append the expense record,
apply each share to the owing user's balance (raising on the first unknown
user id, *after* the expense append and any earlier balance writes), apply
the payer debit (Python's truthiness of `paid_by` makes `None` and `""`
both skip the debit), and append the audit transaction. -/
def applyExpensePhase (g : Group) (expense : Expense) (amount : ℚ)
    (paidBy : Option String) : Except Err Expense × Group :=
  let g1 : Group := { g with expenses := g.expenses ++ [expense] }
  let applied := applySharesLoop expense.shares g1.users
  match applied.2 with
  | some e => (.error e, { g1 with users := applied.1 })
  | none =>
    let g2 : Group := { g1 with users := applied.1 }
    let tx : Transaction :=
      ⟨none, none, round2 amount, expense.currency,
        "Expense: " ++ expense.description ++ " (" ++ expense.splitType ++ ")"⟩
    if paidBy.getD "" = "" then
      (.ok expense, { g2 with transactions := g2.transactions ++ [tx] })
    else if memKey (paidBy.getD "") g2.users then
      let g3 : Group :=
        { g2 with users := dmodify (paidBy.getD "") (fun b => round2 (b - amount)) g2.users }
      (.ok expense, { g3 with transactions := g3.transactions ++ [tx] })
    else (.error .unknownUser, g2)

/-- `Group.add_expense`.  Returns the result and the group state after the
call; on an exception the state keeps whatever mutations had already been
performed (the expense is appended and share balances applied *before* the
membership checks, exactly as in the source). -/
def addExpense (g : Group) (amount : ℚ) (splitType : String)
    (users : Option (List String)) (exactAmounts percentages : Option (List (String × ℚ)))
    (description : String) (paidBy : Option String) (currency : Option String) :
    Except Err Expense × Group :=
  let cur := currency.getD g.currency
  if cur ≠ g.currency then (.error .currencyMismatch, g)
  else
    match computeShares amount (lowerString splitType) users exactAmounts percentages with
    | .error e => (.error e, g)
    | .ok shares =>
      applyExpensePhase g
        ⟨description, round2 amount, cur, (lowerString splitType), shares, paidBy⟩ amount paidBy

/-- `Group.settle_debt`: the requested amount is rounded to 2 decimals
*before* any of the three validations, then the user's balance is reduced
and a "Settlement" transaction appended. -/
def settleDebt (g : Group) (userId : String) (amount : ℚ) (toUserId : Option String) :
    Except Err Transaction × Group :=
  match dlookup userId g.users with
  | none => (.error .unknownUser, g)
  | some bal =>
    let amt := round2 amount
    if amt < 0 then (.error .invalidAmount, g)
    else if 0 < bal ∧ bal + eps < amt then (.error .overSettlement, g)
    else if bal ≤ 0 ∧ 0 < amt then (.error .nothingOwed, g)
    else
      let tx : Transaction := ⟨some userId, toUserId, amt, g.currency, "Settlement"⟩
      (.ok tx, { g with users := dset userId (round2 (bal - amt)) g.users,
                        transactions := g.transactions ++ [tx] })

/-- `Group.get_balances`: snapshot of every balance rounded to 2 decimals. -/
def getBalances (g : Group) : List (String × ℚ) :=
  g.users.map (fun p => (p.1, round2 p.2))

/-- The debtor list built by `simplify_debts`: users with positive rounded
balance, paired with that magnitude, in user-insertion order. -/
def debtorsOf (g : Group) : List (String × ℚ) :=
  g.users.filterMap (fun p => if 0 < round2 p.2 then some (p.1, round2 p.2) else none)

/-- The creditor list built by `simplify_debts`: users with negative rounded
balance, paired with the magnitude `-bal`, in user-insertion order. -/
def creditorsOf (g : Group) : List (String × ℚ) :=
  g.users.filterMap (fun p => if round2 p.2 < 0 then some (p.1, -round2 p.2) else none)

/-- One simplification transfer applied to the balance ledger: debtor
balance decreased then creditor balance increased, each write rounded. -/
def applyTransfer (dId cId : String) (t : ℚ) (users : List (String × ℚ)) :
    List (String × ℚ) :=
  dmodify cId (fun b => round2 (b + t)) (dmodify dId (fun b => round2 (b - t)) users)

/-- The two-pointer greedy loop of `simplify_debts` (lines 147-161).  The
Python `while` advances cursors over the two lists; entries behind a cursor
are never revisited, so the loop is the recursion below on the lists of
still-active entries.  The fuel argument bounds the iteration count; the
call site passes `debtors.length + creditors.length`, which is proved
sufficient for every list the function is actually called on. -/
def simplifyLoop (currency : String) :
    ℕ → List (String × ℚ) → List (String × ℚ) → List (String × ℚ) →
    List Transaction × List (String × ℚ)
  | 0, _, _, users => ([], users)
  | _ + 1, [], _, users => ([], users)
  | _ + 1, _ :: _, [], users => ([], users)
  | fuel + 1, (dId, owe) :: ds, (cId, recv) :: cs, users =>
    let transfer := round2 (min owe recv)
    let tx : Transaction := ⟨some dId, some cId, transfer, currency, "Simplified settlement"⟩
    let users' := applyTransfer dId cId transfer users
    let newOwe := round2 (owe - transfer)
    let newRecv := round2 (recv - transfer)
    let ds' := if |newOwe| < eps then ds else (dId, newOwe) :: ds
    let cs' := if |newRecv| < eps then cs else (cId, newRecv) :: cs
    let rest := simplifyLoop currency fuel ds' cs' users'
    (tx :: rest.1, rest.2)

/-- Descending order on magnitudes used by `sort(key=..., reverse=True)`. -/
def magGE (a b : String × ℚ) : Prop := b.2 ≤ a.2

instance : DecidableRel magGE := fun a b => inferInstanceAs (Decidable (b.2 ≤ a.2))

/-- `Group.simplify_debts`: partition rounded balances, sort both lists
stably by descending magnitude (Python's stable `sort` with `reverse=True`
is modelled by the stable `insertionSort`, which produces the identical
list), run the greedy loop, and append the emitted transfers to the
transaction log. -/
def simplifyDebts (g : Group) : List Transaction × Group :=
  let debtors := (debtorsOf g).insertionSort magGE
  let creditors := (creditorsOf g).insertionSort magGE
  let res := simplifyLoop g.currency (debtors.length + creditors.length)
    debtors creditors g.users
  (res.1, { g with users := res.2, transactions := g.transactions ++ res.1 })

/-- The external operations that mutate a group, for stating invariants
over arbitrary call sequences. -/
inductive Op
  | addUser (uid : String)
  | addExpense (amount : ℚ) (splitType : String) (users : Option (List String))
      (exactAmounts percentages : Option (List (String × ℚ)))
      (description : String) (paidBy : Option String) (currency : Option String)
  | settleDebt (uid : String) (amount : ℚ) (toUid : Option String)
  | simplifyDebts

/-- State transition of one operation (errors keep the returned state, as
in the Python original where mutations are in place). -/
def applyOp (g : Group) : Op → Group
  | .addUser uid => addUser g uid
  | .addExpense a st us ex pc d pb c => (addExpense g a st us ex pc d pb c).2
  | .settleDebt uid a t => (settleDebt g uid a t).2
  | .simplifyDebts => (simplifyDebts g).2

/-- State after a sequence of operations. -/
def applyOps (g : Group) (ops : List Op) : Group := ops.foldl applyOp g

/-! ### Arithmetic lemmas about `round2` -/

theorem rat_floor_eq_floor (y : ℚ) : y.floor = ⌊y⌋ := by
  rw [Rat.floor_def', Rat.floor_def]

theorem round2_eq_round (x : ℚ) : round2 x = ((round (x * 100) : ℤ) : ℚ) / 100 := by
  unfold round2
  rw [rat_floor_eq_floor, round_eq]

theorem round2_int_div (n : ℤ) : round2 ((n : ℚ) / 100) = (n : ℚ) / 100 := by
  rw [round2_eq_round]
  rw [div_mul_cancel₀ (b := (100 : ℚ)) _ (by norm_num), round_intCast]

theorem dec2_iff {x : ℚ} : Dec2 x ↔ ∃ n : ℤ, x = (n : ℚ) / 100 := by
  constructor
  · intro h
    exact ⟨(x * 100 + 1 / 2).floor, h.symm⟩
  · rintro ⟨n, rfl⟩
    exact round2_int_div n

theorem dec2_round2 (x : ℚ) : Dec2 (round2 x) :=
  round2_int_div ((x * 100 + 1 / 2).floor)

theorem dec2_zero : Dec2 (0 : ℚ) := dec2_iff.mpr ⟨0, by norm_num⟩

theorem Dec2.add {x y : ℚ} (hx : Dec2 x) (hy : Dec2 y) : Dec2 (x + y) := by
  obtain ⟨m, rfl⟩ := dec2_iff.mp hx
  obtain ⟨n, rfl⟩ := dec2_iff.mp hy
  exact dec2_iff.mpr ⟨m + n, by push_cast; ring⟩

theorem Dec2.neg {x : ℚ} (hx : Dec2 x) : Dec2 (-x) := by
  obtain ⟨m, rfl⟩ := dec2_iff.mp hx
  exact dec2_iff.mpr ⟨-m, by push_cast; ring⟩

theorem Dec2.sub {x y : ℚ} (hx : Dec2 x) (hy : Dec2 y) : Dec2 (x - y) := by
  rw [sub_eq_add_neg]; exact hx.add hy.neg

theorem Dec2.min {x y : ℚ} (hx : Dec2 x) (hy : Dec2 y) : Dec2 (min x y) := by
  rcases le_total x y with h | h
  · rwa [min_eq_left h]
  · rwa [min_eq_right h]

theorem round2_sub_dec2 (x : ℚ) {t : ℚ} (ht : Dec2 t) :
    round2 (x - t) = round2 x - t := by
  obtain ⟨n, rfl⟩ := dec2_iff.mp ht
  simp only [round2_eq_round]
  rw [sub_mul, div_mul_cancel₀ (b := (100 : ℚ)) _ (by norm_num), round_sub_int]
  push_cast
  ring

theorem round2_add_dec2 (x : ℚ) {t : ℚ} (ht : Dec2 t) :
    round2 (x + t) = round2 x + t := by
  obtain ⟨n, rfl⟩ := dec2_iff.mp ht
  simp only [round2_eq_round]
  rw [add_mul, div_mul_cancel₀ (b := (100 : ℚ)) _ (by norm_num), round_add_int]
  push_cast
  ring

/-- A 2-decimal value within `1e-9` of `x` is exactly the rounding of `x`. -/
theorem round2_eq_of_near {x t : ℚ} (ht : Dec2 t) (h : |x - t| ≤ eps) :
    round2 x = t := by
  obtain ⟨n, rfl⟩ := dec2_iff.mp ht
  simp only [eps] at h
  have hb := abs_le.mp h
  rw [round2_eq_round]
  rw [round_eq]
  have hfloor : ⌊x * 100 + 1 / 2⌋ = n := by
    rw [Int.floor_eq_iff]
    constructor
    · linarith [hb.1]
    · linarith [hb.2]
  rw [hfloor]

/-- Rounding kills any amount strictly under half a cent. -/
theorem round2_small_pos {a : ℚ} (h0 : 0 < a) (h : a < 1 / 200) : round2 a = 0 := by
  rw [round2_eq_round]
  rw [round_eq]
  have hfloor : ⌊a * 100 + 1 / 2⌋ = 0 := by
    rw [Int.floor_eq_iff]
    constructor
    · push_cast
      linarith
    · push_cast
      linarith
  rw [hfloor]
  norm_num

/-- A non-zero whole number of cents has magnitude at least one cent, hence
the `abs(...) < 1e-9` test is exactly a zero test on such values. -/
theorem dec2_abs_lt_eps {x : ℚ} (hx : Dec2 x) : |x| < eps ↔ x = 0 := by
  constructor
  · intro h
    by_contra hne
    obtain ⟨n, rfl⟩ := dec2_iff.mp hx
    have hn : n ≠ 0 := by
      intro h0
      apply hne
      rw [h0]
      norm_num
    have h1 : (1 : ℚ) ≤ |(n : ℚ)| := by
      have := Int.one_le_abs hn
      calc (1 : ℚ) = ((1 : ℤ) : ℚ) := by norm_num
        _ ≤ ((|n| : ℤ) : ℚ) := by exact_mod_cast this
        _ = |(n : ℚ)| := by push_cast; rfl
    have : |(n : ℚ) / 100| = |(n : ℚ)| / 100 := by
      rw [abs_div]
      norm_num
    rw [this] at h
    have : (1 : ℚ) / 100 ≤ |(n : ℚ)| / 100 := by linarith
    have heps : eps < 1 / 100 := by norm_num [eps]
    linarith
  · intro h
    rw [h]
    norm_num [eps]

/-! ### Association-list lemmas -/

theorem dlookup_dset_self (k : String) (v : ℚ) (l : List (String × ℚ)) :
    dlookup k (dset k v l) = some v := by
  induction l with
  | nil => simp [dset, dlookup]
  | cons p rest ih =>
    by_cases h : p.1 = k
    · simp [dset, h, dlookup]
    · simp [dset, h, dlookup, ih]

theorem dlookup_dset_ne {k' k : String} (h : k' ≠ k) (v : ℚ) (l : List (String × ℚ)) :
    dlookup k' (dset k v l) = dlookup k' l := by
  have hk : k ≠ k' := fun he => h he.symm
  induction l with
  | nil => simp [dset, dlookup, hk]
  | cons p rest ih =>
    by_cases hp : p.1 = k
    · have hp' : p.1 ≠ k' := by rw [hp]; exact hk
      simp only [dset, if_pos hp, dlookup, if_neg hk, if_neg hp']
    · simp only [dset, if_neg hp, dlookup, ih]

theorem dlookup_dmodify_self (k : String) (f : ℚ → ℚ) (l : List (String × ℚ)) :
    dlookup k (dmodify k f l) = (dlookup k l).map f := by
  induction l with
  | nil => simp [dmodify, dlookup]
  | cons p rest ih =>
    by_cases h : p.1 = k
    · simp [dmodify, h, dlookup]
    · simp [dmodify, h, dlookup, ih]

theorem dlookup_dmodify_ne {k' k : String} (h : k' ≠ k) (f : ℚ → ℚ)
    (l : List (String × ℚ)) :
    dlookup k' (dmodify k f l) = dlookup k' l := by
  induction l with
  | nil => simp [dmodify]
  | cons p rest ih =>
    by_cases hp : p.1 = k
    · have hp' : p.1 ≠ k' := by
        rw [hp]
        exact fun he => h he.symm
      simp only [dmodify, if_pos hp, dlookup, if_neg hp']
    · simp only [dmodify, if_neg hp, dlookup, ih]

theorem sumVals_nil : sumVals [] = 0 := rfl

theorem sumVals_cons (p : String × ℚ) (l : List (String × ℚ)) :
    sumVals (p :: l) = p.2 + sumVals l := by
  simp [sumVals]

theorem sumVals_dmodify_add (k : String) (d : ℚ) {l : List (String × ℚ)}
    (h : (dlookup k l).isSome) :
    sumVals (dmodify k (fun v => v + d) l) = sumVals l + d := by
  induction l with
  | nil => simp [dlookup] at h
  | cons p rest ih =>
    by_cases hp : p.1 = k
    · simp only [dmodify, if_pos hp, sumVals_cons]
      ring
    · simp only [dlookup, if_neg hp] at h
      simp only [dmodify, if_neg hp, sumVals_cons, ih h]
      ring

theorem dset_values (P : ℚ → Prop) {l : List (String × ℚ)}
    (hl : ∀ p ∈ l, P p.2) {v : ℚ} (hv : P v) (k : String) :
    ∀ p ∈ dset k v l, P p.2 := by
  induction l with
  | nil =>
    intro p hp
    simp [dset] at hp
    rw [hp]
    exact hv
  | cons q rest ih =>
    intro p hp
    by_cases hq : q.1 = k
    · rw [dset, if_pos hq] at hp
      rcases List.mem_cons.mp hp with h | h
      · rw [h]; exact hv
      · exact hl p (List.mem_cons_of_mem q h)
    · rw [dset, if_neg hq] at hp
      rcases List.mem_cons.mp hp with h | h
      · rw [h]; exact hl q (List.mem_cons_self _ _)
      · exact ih (fun p hp => hl p (List.mem_cons_of_mem q hp)) p h

theorem dmodify_values (P : ℚ → Prop) {f : ℚ → ℚ} (hf : ∀ b, P (f b))
    {l : List (String × ℚ)} (hl : ∀ p ∈ l, P p.2) (k : String) :
    ∀ p ∈ dmodify k f l, P p.2 := by
  induction l with
  | nil => simp [dmodify]
  | cons q rest ih =>
    intro p hp
    by_cases hq : q.1 = k
    · rw [dmodify, if_pos hq] at hp
      rcases List.mem_cons.mp hp with h | h
      · rw [h]; exact hf q.2
      · exact hl p (List.mem_cons_of_mem q h)
    · rw [dmodify, if_neg hq] at hp
      rcases List.mem_cons.mp hp with h | h
      · rw [h]; exact hl q (List.mem_cons_self _ _)
      · exact ih (fun p hp => hl p (List.mem_cons_of_mem q hp)) p h

theorem sumVals_dec2 {l : List (String × ℚ)} (h : ∀ p ∈ l, Dec2 p.2) :
    Dec2 (sumVals l) := by
  induction l with
  | nil => exact dec2_zero
  | cons p rest ih =>
    rw [sumVals_cons]
    exact (h p (List.mem_cons_self _ _)).add
      (ih fun q hq => h q (List.mem_cons_of_mem p hq))

theorem dlookup_mem {k : String} {v : ℚ} {l : List (String × ℚ)}
    (h : dlookup k l = some v) : (k, v) ∈ l := by
  induction l with
  | nil => simp [dlookup] at h
  | cons p rest ih =>
    by_cases hp : p.1 = k
    · rw [dlookup, if_pos hp] at h
      have : p = (k, v) := by
        cases p
        simp only [Option.some.injEq] at h
        simp_all
      rw [← this]
      exact (List.mem_cons_self _ _)
    · rw [dlookup, if_neg hp] at h
      exact List.mem_cons_of_mem p (ih h)

theorem dlookup_eq_of_mem_nodup {l : List (String × ℚ)}
    (hnd : (l.map Prod.fst).Nodup) {k : String} {v : ℚ} (hm : (k, v) ∈ l) :
    dlookup k l = some v := by
  induction l with
  | nil => simp at hm
  | cons p rest ih =>
    rw [List.map_cons, List.nodup_cons] at hnd
    rcases List.mem_cons.mp hm with h | h
    · rw [← h]
      simp [dlookup]
    · have hp : p.1 ≠ k := by
        intro he
        exact hnd.1 (he ▸ (List.mem_map.mpr ⟨(k, v), h, rfl⟩))
      rw [dlookup, if_neg hp]
      exact ih hnd.2 h

theorem dset_eq_append {k : String} {l : List (String × ℚ)}
    (h : dlookup k l = none) (v : ℚ) : dset k v l = l ++ [(k, v)] := by
  induction l with
  | nil => simp [dset]
  | cons p rest ih =>
    rw [dlookup] at h
    by_cases hp : p.1 = k
    · rw [if_pos hp] at h
      exact absurd h (by simp)
    · rw [if_neg hp] at h
      rw [dset, if_neg hp, ih h]
      simp

theorem dlookup_append_of_none {k : String} {l₁ : List (String × ℚ)}
    (h : dlookup k l₁ = none) (l₂ : List (String × ℚ)) :
    dlookup k (l₁ ++ l₂) = dlookup k l₂ := by
  induction l₁ with
  | nil => simp
  | cons p rest ih =>
    rw [dlookup] at h
    by_cases hp : p.1 = k
    · rw [if_pos hp] at h
      exact absurd h (by simp)
    · rw [if_neg hp] at h
      rw [List.cons_append, dlookup, if_neg hp]
      exact ih h

theorem dlookup_isSome_dset (k' k : String) (v : ℚ) (l : List (String × ℚ))
    (h : (dlookup k' l).isSome) : (dlookup k' (dset k v l)).isSome := by
  by_cases he : k' = k
  · rw [he, dlookup_dset_self]
    rfl
  · rwa [dlookup_dset_ne he]

/-! ### Characterization of the share-building folds -/

theorem foldl_dset_const_values (c : ℚ) :
    ∀ (us : List String) (acc : List (String × ℚ)), (∀ p ∈ acc, p.2 = c) →
      ∀ p ∈ us.foldl (fun s u => dset u c s) acc, p.2 = c := by
  intro us
  induction us with
  | nil => intro acc hacc; simpa using hacc
  | cons x us' ih =>
    intro acc hacc
    rw [List.foldl_cons]
    exact ih (dset x c acc) (fun p hp => dset_values (fun v => v = c) hacc rfl x p hp)

theorem foldl_dset_const_isSome (c : ℚ) :
    ∀ (us : List String) (acc : List (String × ℚ)) (u : String),
      u ∈ us ∨ (dlookup u acc).isSome →
      (dlookup u (us.foldl (fun s u' => dset u' c s) acc)).isSome := by
  intro us
  induction us with
  | nil =>
    intro acc u h
    rcases h with h | h
    · simp at h
    · simpa using h
  | cons x us' ih =>
    intro acc u h
    rw [List.foldl_cons]
    rcases h with h | h
    · rcases List.mem_cons.mp h with he | hm
      · refine ih _ u (Or.inr ?_)
        rw [he, dlookup_dset_self]
        rfl
      · exact ih _ u (Or.inl hm)
    · exact ih _ u (Or.inr (dlookup_isSome_dset u x c acc h))

theorem equalBase_lookup {a : ℚ} {us : List String} {u : String} (hu : u ∈ us) :
    dlookup u (equalBase a us) = some (round2 (a / us.length)) := by
  have hs : (dlookup u (equalBase a us)).isSome := by
    unfold equalBase
    exact foldl_dset_const_isSome _ us [] u (Or.inl hu)
  obtain ⟨v, hv⟩ := Option.isSome_iff_exists.mp hs
  have hmem := dlookup_mem hv
  have hval := foldl_dset_const_values (round2 (a / us.length)) us [] (by simp) _ hmem
  rw [hv]
  exact congrArg some hval

theorem equalBase_values_dec2 (a : ℚ) (us : List String) :
    ∀ p ∈ equalBase a us, Dec2 p.2 := by
  intro p hp
  have := foldl_dset_const_values (round2 (a / us.length)) us [] (by simp) p hp
  rw [this]
  exact dec2_round2 _

theorem foldl_dset_pct_dec2 (a : ℚ) :
    ∀ (ps : List (String × ℚ)) (acc : List (String × ℚ)), (∀ p ∈ acc, Dec2 p.2) →
      ∀ p ∈ ps.foldl (fun s q => dset q.1 (round2 (a * (q.2 / 100))) s) acc, Dec2 p.2 := by
  intro ps
  induction ps with
  | nil => intro acc hacc; simpa using hacc
  | cons q ps' ih =>
    intro acc hacc
    rw [List.foldl_cons]
    exact ih _ (fun p hp => dset_values Dec2 hacc (dec2_round2 _) q.1 p hp)

theorem foldl_dset_pct_isSome (a : ℚ) :
    ∀ (ps : List (String × ℚ)) (acc : List (String × ℚ)) (u : String),
      u ∈ ps.map Prod.fst ∨ (dlookup u acc).isSome →
      (dlookup u (ps.foldl (fun s q => dset q.1 (round2 (a * (q.2 / 100))) s) acc)).isSome := by
  intro ps
  induction ps with
  | nil =>
    intro acc u h
    rcases h with h | h
    · simp at h
    · simpa using h
  | cons q ps' ih =>
    intro acc u h
    rw [List.foldl_cons]
    rcases h with h | h
    · rw [List.map_cons] at h
      rcases List.mem_cons.mp h with he | hm
      · refine ih _ u (Or.inr ?_)
        rw [he, dlookup_dset_self]
        rfl
      · exact ih _ u (Or.inl hm)
    · exact ih _ u (Or.inr (dlookup_isSome_dset u q.1 _ acc h))

theorem pctBase_values_dec2 (a : ℚ) (ps : List (String × ℚ)) :
    ∀ p ∈ pctBase a ps, Dec2 p.2 :=
  foldl_dset_pct_dec2 a ps [] (by simp)

theorem pctBase_isSome {a : ℚ} {ps : List (String × ℚ)} {u : String}
    (hu : u ∈ ps.map Prod.fst) : (dlookup u (pctBase a ps)).isSome :=
  foldl_dset_pct_isSome a ps [] u (Or.inl hu)

/-! ### Equation lemmas for `computeShares` (one per constructor shape) -/

theorem computeShares_equal_none (a : ℚ) (ex pc : Option (List (String × ℚ))) :
    computeShares a "equal" none ex pc = .error .invalidSplit := rfl

theorem computeShares_equal_nil (a : ℚ) (ex pc : Option (List (String × ℚ))) :
    computeShares a "equal" (some []) ex pc = .error .invalidSplit := rfl

theorem computeShares_equal_cons (a : ℚ) (u : String) (us' : List String)
    (ex pc : Option (List (String × ℚ))) :
    computeShares a "equal" (some (u :: us')) ex pc =
      (if sumVals (equalBase a (u :: us')) ≠ round2 a then
        .ok (dmodify ((u :: us').getLast (List.cons_ne_nil u us'))
              (fun v => v + round2 (a - sumVals (equalBase a (u :: us'))))
              (equalBase a (u :: us')))
      else .ok (equalBase a (u :: us'))) := rfl

theorem computeShares_exact_none (a : ℚ) (us : Option (List String))
    (pc : Option (List (String × ℚ))) :
    computeShares a "exact" us none pc = .error .invalidSplit := rfl

theorem computeShares_exact_nil (a : ℚ) (us : Option (List String))
    (pc : Option (List (String × ℚ))) :
    computeShares a "exact" us (some []) pc = .error .invalidSplit := rfl

theorem computeShares_exact_cons (a : ℚ) (us : Option (List String)) (q : String × ℚ)
    (ex' : List (String × ℚ)) (pc : Option (List (String × ℚ))) :
    computeShares a "exact" us (some (q :: ex')) pc =
      (if eps < |round2 (sumVals (q :: ex')) - a| then .error .invalidSplit
       else .ok ((q :: ex').map (fun p => (p.1, round2 p.2)))) := rfl

theorem computeShares_pct_none (a : ℚ) (us : Option (List String))
    (ex : Option (List (String × ℚ))) :
    computeShares a "percentage" us ex none = .error .invalidSplit := rfl

theorem computeShares_pct_nil (a : ℚ) (us : Option (List String))
    (ex : Option (List (String × ℚ))) :
    computeShares a "percentage" us ex (some []) = .error .invalidSplit := rfl

theorem computeShares_pct_cons (a : ℚ) (us : Option (List String))
    (ex : Option (List (String × ℚ))) (p : String × ℚ) (ps : List (String × ℚ)) :
    computeShares a "percentage" us ex (some (p :: ps)) =
      (if eps < |round2 (sumVals (p :: ps)) - 100| then .error .invalidSplit
       else if sumVals (pctBase a (p :: ps)) ≠ round2 a then
        .ok (dmodify ((p :: ps).getLast (List.cons_ne_nil p ps)).1
              (fun v => v + round2 (a - sumVals (pctBase a (p :: ps))))
              (pctBase a (p :: ps)))
       else .ok (pctBase a (p :: ps))) := rfl

/-! ### Conservation of each split strategy -/

theorem computeShares_equal_sum {a : ℚ} {us : Option (List String)}
    {ex pc : Option (List (String × ℚ))} {shares : List (String × ℚ)}
    (h : computeShares a "equal" us ex pc = .ok shares) :
    sumVals shares = round2 a := by
  rcases us with _ | us₀
  · rw [computeShares_equal_none] at h
    exact absurd h (by simp)
  rcases us₀ with _ | ⟨u, us'⟩
  · rw [computeShares_equal_nil] at h
    exact absurd h (by simp)
  rw [computeShares_equal_cons] at h
  have hdec : Dec2 (sumVals (equalBase a (u :: us'))) :=
    sumVals_dec2 (equalBase_values_dec2 a (u :: us'))
  by_cases hne : sumVals (equalBase a (u :: us')) ≠ round2 a
  · rw [if_pos hne, Except.ok.injEq] at h
    have hsome : (dlookup ((u :: us').getLast (List.cons_ne_nil u us'))
        (equalBase a (u :: us'))).isSome := by
      unfold equalBase
      exact foldl_dset_const_isSome _ _ [] _ (Or.inl (List.getLast_mem _))
    have hsum := sumVals_dmodify_add ((u :: us').getLast (List.cons_ne_nil u us'))
      (round2 (a - sumVals (equalBase a (u :: us')))) hsome
    have hdiff : round2 (a - sumVals (equalBase a (u :: us'))) =
        round2 a - sumVals (equalBase a (u :: us')) := round2_sub_dec2 a hdec
    rw [← h, hsum, hdiff]
    ring
  · rw [if_neg hne, Except.ok.injEq] at h
    rw [← h]
    exact not_ne_iff.mp hne

theorem computeShares_pct_sum {a : ℚ} {us : Option (List String)}
    {ex pc : Option (List (String × ℚ))} {shares : List (String × ℚ)}
    (h : computeShares a "percentage" us ex pc = .ok shares) :
    sumVals shares = round2 a := by
  rcases pc with _ | pc₀
  · rw [computeShares_pct_none] at h
    exact absurd h (by simp)
  rcases pc₀ with _ | ⟨p, ps⟩
  · rw [computeShares_pct_nil] at h
    exact absurd h (by simp)
  rw [computeShares_pct_cons] at h
  by_cases hval : eps < |round2 (sumVals (p :: ps)) - 100|
  · rw [if_pos hval] at h
    exact absurd h (by simp)
  rw [if_neg hval] at h
  have hdec : Dec2 (sumVals (pctBase a (p :: ps))) :=
    sumVals_dec2 (pctBase_values_dec2 a (p :: ps))
  by_cases hne : sumVals (pctBase a (p :: ps)) ≠ round2 a
  · rw [if_pos hne, Except.ok.injEq] at h
    have hsome : (dlookup ((p :: ps).getLast (List.cons_ne_nil p ps)).1
        (pctBase a (p :: ps))).isSome :=
      pctBase_isSome (List.mem_map.mpr ⟨_, List.getLast_mem _, rfl⟩)
    have hsum := sumVals_dmodify_add ((p :: ps).getLast (List.cons_ne_nil p ps)).1
      (round2 (a - sumVals (pctBase a (p :: ps)))) hsome
    have hdiff : round2 (a - sumVals (pctBase a (p :: ps))) =
        round2 a - sumVals (pctBase a (p :: ps)) := round2_sub_dec2 a hdec
    rw [← h, hsum, hdiff]
    ring
  · rw [if_neg hne, Except.ok.injEq] at h
    rw [← h]
    exact not_ne_iff.mp hne

theorem computeShares_exact_shares {a : ℚ} {us : Option (List String)}
    {ex : List (String × ℚ)} {pc : Option (List (String × ℚ))} {shares : List (String × ℚ)}
    (h : computeShares a "exact" us (some ex) pc = .ok shares) :
    shares = ex.map (fun p => (p.1, round2 p.2)) ∧ ¬ eps < |round2 (sumVals ex) - a| := by
  rcases ex with _ | ⟨q, ex'⟩
  · rw [computeShares_exact_nil] at h
    exact absurd h (by simp)
  rw [computeShares_exact_cons] at h
  by_cases hval : eps < |round2 (sumVals (q :: ex')) - a|
  · rw [if_pos hval] at h
    exact absurd h (by simp)
  · rw [if_neg hval, Except.ok.injEq] at h
    exact ⟨h.symm, hval⟩

/-! ### Extraction lemmas for `addExpense` -/

theorem applyExpensePhase_ok {g : Group} {expense : Expense} {amount : ℚ}
    {paidBy : Option String} {e : Expense} {g' : Group}
    (h : applyExpensePhase g expense amount paidBy = (.ok e, g')) : e = expense := by
  unfold applyExpensePhase at h
  dsimp only at h
  cases hap : (applySharesLoop expense.shares g.users).2 with
  | some err =>
    rw [hap] at h
    simp at h
  | none =>
    rw [hap] at h
    dsimp only at h
    by_cases hpb : paidBy.getD "" = ""
    · rw [if_pos hpb] at h
      injection h with h1 h2
      injection h1 with h1
      exact h1.symm
    · rw [if_neg hpb] at h
      by_cases hmem : memKey (paidBy.getD "") (applySharesLoop expense.shares
          (g.expenses ++ [expense] |> fun es => { g with expenses := es }).users).1
      · rw [if_pos hmem] at h
        injection h with h1 h2
        injection h1 with h1
        exact h1.symm
      · rw [if_neg hmem] at h
        simp at h

theorem addExpense_ok_shares {g : Group} {a : ℚ} {st : String}
    {us : Option (List String)} {ex pc : Option (List (String × ℚ))} {d : String}
    {pb : Option String} {c : Option String} {e : Expense} {g' : Group}
    (h : addExpense g a st us ex pc d pb c = (.ok e, g')) :
    computeShares a (lowerString st) us ex pc = .ok e.shares ∧ e.amount = round2 a := by
  unfold addExpense at h
  dsimp only at h
  by_cases hcur : c.getD g.currency ≠ g.currency
  · rw [if_pos hcur] at h
    simp at h
  rw [if_neg hcur] at h
  cases hcs : computeShares a (lowerString st) us ex pc with
  | error err =>
    rw [hcs] at h
    simp at h
  | ok shares =>
    rw [hcs] at h
    have he : e = ⟨d, round2 a, c.getD g.currency, (lowerString st), shares, pb⟩ :=
      applyExpensePhase_ok h
    rw [he]
    exact ⟨rfl, rfl⟩

theorem computeShares_exact_sum {a : ℚ} {us : Option (List String)}
    {ex : List (String × ℚ)} {pc : Option (List (String × ℚ))} {shares : List (String × ℚ)}
    (hex : ∀ p ∈ ex, Dec2 p.2)
    (h : computeShares a "exact" us (some ex) pc = .ok shares) :
    sumVals shares = round2 a := by
  obtain ⟨hsh, hval⟩ := computeShares_exact_shares h
  have hmap : ex.map (fun p => (p.1, round2 p.2)) = ex := by
    apply List.map_congr_left ?_ |>.trans (List.map_id ex)
    intro p hp
    have := hex p hp
    rw [Dec2] at this
    cases p with
    | mk k v => simp_all
  rw [hsh, hmap]
  have hdec : Dec2 (sumVals ex) := sumVals_dec2 hex
  have htot : round2 (sumVals ex) = sumVals ex := hdec
  rw [htot] at hval
  have : |a - sumVals ex| ≤ eps := by
    rw [abs_sub_comm]
    exact not_lt.mp hval
  exact (round2_eq_of_near hdec this).symm

/-! ### Shape of the reconciled share mappings -/

theorem foldl_dset_eq_append (f : String × ℚ → ℚ) :
    ∀ (ps : List (String × ℚ)) (acc : List (String × ℚ)),
      (ps.map Prod.fst).Nodup → (∀ q ∈ ps, dlookup q.1 acc = none) →
      ps.foldl (fun s q => dset q.1 (f q) s) acc =
        acc ++ ps.map (fun q => (q.1, f q)) := by
  intro ps
  induction ps with
  | nil => simp
  | cons q ps' ih =>
    intro acc hnd hacc
    rw [List.map_cons, List.nodup_cons] at hnd
    rw [List.foldl_cons, dset_eq_append (hacc q (List.mem_cons_self _ _)) (f q),
      ih _ hnd.2 ?_]
    · simp
    · intro q' hq'
      have hne : q'.1 ≠ q.1 := by
        intro he
        exact hnd.1 (he ▸ List.mem_map.mpr ⟨q', hq', rfl⟩)
      rw [dlookup_append_of_none (hacc q' (List.mem_cons_of_mem q hq'))]
      have hne' : ¬ q.1 = q'.1 := fun h => hne h.symm
      simp [dlookup, hne']

theorem pctBase_eq_map {a : ℚ} {ps : List (String × ℚ)}
    (hnd : (ps.map Prod.fst).Nodup) :
    pctBase a ps = ps.map (fun q => (q.1, round2 (a * (q.2 / 100)))) := by
  unfold pctBase
  rw [foldl_dset_eq_append _ ps [] hnd (fun q _ => rfl)]
  simp

theorem dlookup_map_fst (f : String × ℚ → ℚ) {ps : List (String × ℚ)}
    (hnd : (ps.map Prod.fst).Nodup) {u : String} {v : ℚ} (hm : (u, v) ∈ ps) :
    dlookup u (ps.map (fun q => (q.1, f q))) = some (f (u, v)) := by
  apply dlookup_eq_of_mem_nodup
  · have : (ps.map (fun q => (q.1, f q))).map Prod.fst = ps.map Prod.fst := by
      rw [List.map_map]
      rfl
    rw [this]
    exact hnd
  · exact List.mem_map.mpr ⟨(u, v), hm, rfl⟩

theorem computeShares_equal_shape {a : ℚ} {u : String} {us' : List String}
    {ex pc : Option (List (String × ℚ))} {shares : List (String × ℚ)}
    (h : computeShares a "equal" (some (u :: us')) ex pc = .ok shares)
    (hdiff : sumVals (equalBase a (u :: us')) ≠ round2 a) :
    shares = dmodify ((u :: us').getLast (List.cons_ne_nil u us'))
      (fun v => v + round2 (a - sumVals (equalBase a (u :: us'))))
      (equalBase a (u :: us')) := by
  rw [computeShares_equal_cons, if_pos hdiff, Except.ok.injEq] at h
  exact h.symm

theorem computeShares_pct_shape {a : ℚ} {us : Option (List String)}
    {ex : Option (List (String × ℚ))} {p : String × ℚ} {ps : List (String × ℚ)}
    {shares : List (String × ℚ)}
    (h : computeShares a "percentage" us ex (some (p :: ps)) = .ok shares)
    (hdiff : sumVals (pctBase a (p :: ps)) ≠ round2 a) :
    shares = dmodify ((p :: ps).getLast (List.cons_ne_nil p ps)).1
      (fun v => v + round2 (a - sumVals (pctBase a (p :: ps))))
      (pctBase a (p :: ps)) := by
  rw [computeShares_pct_cons] at h
  by_cases hval : eps < |round2 (sumVals (p :: ps)) - 100|
  · rw [if_pos hval] at h
    exact absurd h (by simp)
  · rw [if_neg hval, if_pos hdiff, Except.ok.injEq] at h
    exact h.symm

/-! ### Error-path lemmas for `addExpense` and `settleDebt` -/

theorem applySharesLoop_error :
    ∀ (shares users : List (String × ℚ)) {e : Err},
      (applySharesLoop shares users).2 = some e → e = .unknownUser := by
  intro shares
  induction shares with
  | nil =>
    intro users e h
    simp [applySharesLoop] at h
  | cons p rest ih =>
    intro users e h
    cases p with
    | mk uid amt =>
      rw [applySharesLoop] at h
      by_cases hm : memKey uid users
      · rw [if_pos hm] at h
        exact ih _ h
      · rw [if_neg hm] at h
        simp only [Option.some.injEq] at h
        exact h.symm

theorem applyExpensePhase_cases (g : Group) (expense : Expense) (amount : ℚ)
    (paidBy : Option String) :
    (applyExpensePhase g expense amount paidBy).1 = .ok expense ∨
    (applyExpensePhase g expense amount paidBy).1 = .error .unknownUser := by
  unfold applyExpensePhase
  dsimp only
  cases hap : (applySharesLoop expense.shares g.users).2 with
  | some err =>
    right
    have he := applySharesLoop_error _ _ hap
    subst he
    rfl
  | none =>
    dsimp only
    by_cases hpb : paidBy.getD "" = ""
    · rw [if_pos hpb]
      left
      rfl
    · rw [if_neg hpb]
      by_cases hmem : memKey (paidBy.getD "") (applySharesLoop expense.shares g.users).1
      · rw [if_pos hmem]
        left
        rfl
      · rw [if_neg hmem]
        right
        rfl

theorem settleDebt_eq {g : Group} {uid : String} {bal : ℚ}
    (hlook : dlookup uid g.users = some bal) (a : ℚ) (t : Option String) :
    settleDebt g uid a t =
      (if round2 a < 0 then (.error .invalidAmount, g)
       else if 0 < bal ∧ bal + eps < round2 a then (.error .overSettlement, g)
       else if bal ≤ 0 ∧ 0 < round2 a then (.error .nothingOwed, g)
       else (.ok ⟨some uid, t, round2 a, g.currency, "Settlement"⟩,
         { g with users := dset uid (round2 (bal - round2 a)) g.users,
                  transactions := g.transactions ++
                    [⟨some uid, t, round2 a, g.currency, "Settlement"⟩] })) := by
  unfold settleDebt
  rw [hlook]

/-! ### Preservation of 2-decimal balances by every operation -/

theorem applySharesLoop_dec2 :
    ∀ (shares users : List (String × ℚ)), (∀ p ∈ users, Dec2 p.2) →
      ∀ p ∈ (applySharesLoop shares users).1, Dec2 p.2 := by
  intro shares
  induction shares with
  | nil =>
    intro users h
    simpa [applySharesLoop] using h
  | cons q rest ih =>
    intro users h
    cases q with
    | mk uid amt =>
      rw [applySharesLoop]
      by_cases hm : memKey uid users
      · rw [if_pos hm]
        exact ih _ (dmodify_values Dec2 (fun b => dec2_round2 _) h uid)
      · rw [if_neg hm]
        simpa using h

theorem applyExpensePhase_dec2 (g : Group) (expense : Expense) (amount : ℚ)
    (paidBy : Option String) (h : ∀ p ∈ g.users, Dec2 p.2) :
    ∀ p ∈ (applyExpensePhase g expense amount paidBy).2.users, Dec2 p.2 := by
  unfold applyExpensePhase
  dsimp only
  cases hap : (applySharesLoop expense.shares g.users).2 with
  | some err =>
    dsimp only
    exact applySharesLoop_dec2 _ _ h
  | none =>
    dsimp only
    by_cases hpb : paidBy.getD "" = ""
    · rw [if_pos hpb]
      exact applySharesLoop_dec2 _ _ h
    · rw [if_neg hpb]
      by_cases hm : memKey (paidBy.getD "") (applySharesLoop expense.shares g.users).1
      · rw [if_pos hm]
        exact dmodify_values Dec2 (fun b => dec2_round2 _)
          (applySharesLoop_dec2 _ _ h) _
      · rw [if_neg hm]
        exact applySharesLoop_dec2 _ _ h

theorem addExpense_dec2 (g : Group) (a : ℚ) (st : String)
    (us : Option (List String)) (ex pc : Option (List (String × ℚ)))
    (d : String) (pb c : Option String) (h : ∀ p ∈ g.users, Dec2 p.2) :
    ∀ p ∈ (addExpense g a st us ex pc d pb c).2.users, Dec2 p.2 := by
  unfold addExpense
  dsimp only
  by_cases hcur : c.getD g.currency ≠ g.currency
  · rw [if_pos hcur]
    exact h
  · rw [if_neg hcur]
    cases computeShares a (lowerString st) us ex pc with
    | error err => exact h
    | ok shares => exact applyExpensePhase_dec2 g _ a pb h

theorem settleDebt_dec2 (g : Group) (uid : String) (a : ℚ) (t : Option String)
    (h : ∀ p ∈ g.users, Dec2 p.2) :
    ∀ p ∈ (settleDebt g uid a t).2.users, Dec2 p.2 := by
  cases hlook : dlookup uid g.users with
  | none =>
    unfold settleDebt
    rw [hlook]
    exact h
  | some bal =>
    rw [settleDebt_eq hlook]
    by_cases h1 : round2 a < 0
    · rw [if_pos h1]
      exact h
    rw [if_neg h1]
    by_cases h2 : 0 < bal ∧ bal + eps < round2 a
    · rw [if_pos h2]
      exact h
    rw [if_neg h2]
    by_cases h3 : bal ≤ 0 ∧ 0 < round2 a
    · rw [if_pos h3]
      exact h
    rw [if_neg h3]
    exact dset_values Dec2 h (dec2_round2 _) uid

theorem simplifyLoop_dec2 (currency : String) :
    ∀ (fuel : ℕ) (D C users : List (String × ℚ)), (∀ p ∈ users, Dec2 p.2) →
      ∀ p ∈ (simplifyLoop currency fuel D C users).2, Dec2 p.2 := by
  intro fuel
  induction fuel with
  | zero =>
    intro D C users h
    simpa [simplifyLoop] using h
  | succ n ih =>
    intro D C users h
    match D, C with
    | [], _ =>
      simpa [simplifyLoop] using h
    | _ :: _, [] =>
      simpa [simplifyLoop] using h
    | (dId, owe) :: ds, (cId, recv) :: cs =>
      rw [simplifyLoop]
      dsimp only
      apply ih
      unfold applyTransfer
      exact dmodify_values Dec2 (fun b => dec2_round2 _)
        (dmodify_values Dec2 (fun b => dec2_round2 _) h _) _

theorem simplifyDebts_dec2 (g : Group) (h : ∀ p ∈ g.users, Dec2 p.2) :
    ∀ p ∈ (simplifyDebts g).2.users, Dec2 p.2 := by
  unfold simplifyDebts
  exact simplifyLoop_dec2 g.currency _ _ _ _ h

theorem applyOp_dec2 (g : Group) (op : Op) (h : ∀ p ∈ g.users, Dec2 p.2) :
    ∀ p ∈ (applyOp g op).users, Dec2 p.2 := by
  cases op with
  | addUser uid =>
    intro p hp
    rcases List.mem_append.mp hp with hm | hm
    · exact h p hm
    · simp only [List.mem_singleton] at hm
      rw [hm]
      exact dec2_zero
  | addExpense a st us ex pc d pb c => exact addExpense_dec2 g a st us ex pc d pb c h
  | settleDebt uid a t => exact settleDebt_dec2 g uid a t h
  | simplifyDebts => exact simplifyDebts_dec2 g h

theorem applyOps_dec2 :
    ∀ (ops : List Op) (g : Group), (∀ p ∈ g.users, Dec2 p.2) →
      ∀ p ∈ (applyOps g ops).users, Dec2 p.2 := by
  intro ops
  induction ops with
  | nil =>
    intro g h
    simpa [applyOps] using h
  | cons op rest ih =>
    intro g h
    exact ih (applyOp g op) (applyOp_dec2 g op h)

/-! ### The greedy simplification loop -/

/-- The invariant of the active debtor/creditor entries: every remaining
magnitude is a positive whole number of cents. -/
def GoodEntries (l : List (String × ℚ)) : Prop := ∀ p ∈ l, Dec2 p.2 ∧ 0 < p.2

theorem goodEntries_sum_nonneg {l : List (String × ℚ)} (h : GoodEntries l) :
    0 ≤ sumVals l := by
  induction l with
  | nil => simp [sumVals]
  | cons p rest ih =>
    rw [sumVals_cons]
    have hp := h p (List.mem_cons_self _ _)
    have hr := ih (fun q hq => h q (List.mem_cons_of_mem p hq))
    linarith [hp.2]

theorem goodEntries_nil_of_sum_zero {l : List (String × ℚ)} (h : GoodEntries l)
    (hs : sumVals l = 0) : l = [] := by
  cases l with
  | nil => rfl
  | cons p rest =>
    exfalso
    have hp := h p (List.mem_cons_self _ _)
    have hr := goodEntries_sum_nonneg (fun q hq => h q (List.mem_cons_of_mem p hq))
    rw [sumVals_cons] at hs
    linarith [hp.2]

theorem goodEntries_tail {p : String × ℚ} {l : List (String × ℚ)}
    (h : GoodEntries (p :: l)) : GoodEntries l :=
  fun q hq => h q (List.mem_cons_of_mem p hq)

theorem simplifyLoop_nil_left (currency : String) (fuel : ℕ)
    (C users : List (String × ℚ)) :
    simplifyLoop currency fuel [] C users = ([], users) := by
  cases fuel with
  | zero => rfl
  | succ n => rfl

theorem simplifyLoop_nil_right (currency : String) (fuel : ℕ)
    (D users : List (String × ℚ)) :
    simplifyLoop currency fuel D [] users = ([], users) := by
  cases fuel with
  | zero => rfl
  | succ n =>
    cases D with
    | nil => rfl
    | cons p ds => rfl

/-- Each loop iteration retires at least one of the two active entries, so
the number of emitted transfers is at most `debtors + creditors - 1`. -/
theorem simplifyLoop_length (currency : String) :
    ∀ (fuel : ℕ) (D C users : List (String × ℚ)),
      GoodEntries D → GoodEntries C →
      (simplifyLoop currency fuel D C users).1.length ≤ D.length + C.length - 1 := by
  intro fuel
  induction fuel with
  | zero =>
    intro D C users _ _
    simp [simplifyLoop]
  | succ n ih =>
    intro D C users hD hC
    match D, C with
    | [], _ =>
      rw [simplifyLoop_nil_left]
      simp
    | _ :: _, [] =>
      rw [simplifyLoop_nil_right]
      simp
    | (dId, owe) :: ds, (cId, recv) :: cs =>
      obtain ⟨hdowe, hpowe⟩ := hD _ (List.mem_cons_self _ _)
      obtain ⟨hdrecv, hprecv⟩ := hC _ (List.mem_cons_self _ _)
      rw [simplifyLoop]
      dsimp only
      have htm : round2 (min owe recv) = min owe recv := hdowe.min hdrecv
      have hno : round2 (owe - round2 (min owe recv)) = owe - min owe recv := by
        rw [htm]
        exact hdowe.sub (htm ▸ dec2_round2 (min owe recv))
      have hnr : round2 (recv - round2 (min owe recv)) = recv - min owe recv := by
        rw [htm]
        exact hdrecv.sub (htm ▸ dec2_round2 (min owe recv))
      have hdropone : |round2 (owe - round2 (min owe recv))| < eps ∨
          |round2 (recv - round2 (min owe recv))| < eps := by
        rcases le_total owe recv with hle | hle
        · left
          rw [hno, min_eq_left hle, sub_self]
          norm_num [eps]
        · right
          rw [hnr, min_eq_right hle, sub_self]
          norm_num [eps]
      by_cases hd1 : |round2 (owe - round2 (min owe recv))| < eps
      · rw [if_pos hd1]
        by_cases hc1 : |round2 (recv - round2 (min owe recv))| < eps
        · rw [if_pos hc1]
          have hrec := ih ds cs (applyTransfer dId cId (round2 (min owe recv)) users)
            (goodEntries_tail hD) (goodEntries_tail hC)
          simp only [List.length_cons]
          omega
        · rw [if_neg hc1]
          have hcs' : GoodEntries ((cId, round2 (recv - round2 (min owe recv))) :: cs) := by
            intro q hq
            rcases List.mem_cons.mp hq with hq | hq
            · rw [hq]
              refine ⟨dec2_round2 _, ?_⟩
              rw [hnr]
              have hle : min owe recv ≤ recv := min_le_right owe recv
              have hne0 : recv - min owe recv ≠ 0 := by
                intro h0
                apply hc1
                rw [hnr, h0]
                norm_num [eps]
              have : 0 ≤ recv - min owe recv := by linarith
              exact lt_of_le_of_ne this (fun h => hne0 h.symm)
            · exact hC q (List.mem_cons_of_mem _ hq)
          have hrec := ih ds ((cId, round2 (recv - round2 (min owe recv))) :: cs)
            (applyTransfer dId cId (round2 (min owe recv)) users)
            (goodEntries_tail hD) hcs'
          simp only [List.length_cons] at hrec ⊢
          omega
      · rw [if_neg hd1]
        rcases hdropone with hd | hc
        · exact absurd hd hd1
        rw [if_pos hc]
        have hds' : GoodEntries ((dId, round2 (owe - round2 (min owe recv))) :: ds) := by
          intro q hq
          rcases List.mem_cons.mp hq with hq | hq
          · rw [hq]
            refine ⟨dec2_round2 _, ?_⟩
            rw [hno]
            have hle : min owe recv ≤ owe := min_le_left owe recv
            have hne0 : owe - min owe recv ≠ 0 := by
              intro h0
              apply hd1
              rw [hno, h0]
              norm_num [eps]
            have : 0 ≤ owe - min owe recv := by linarith
            exact lt_of_le_of_ne this (fun h => hne0 h.symm)
          · exact hD q (List.mem_cons_of_mem _ hq)
        have hrec := ih ((dId, round2 (owe - round2 (min owe recv))) :: ds) cs
          (applyTransfer dId cId (round2 (min owe recv)) users)
          hds' (goodEntries_tail hC)
        simp only [List.length_cons] at hrec ⊢
        omega

theorem goodEntries_debtorsOf (g : Group) : GoodEntries (debtorsOf g) := by
  intro p hp
  obtain ⟨q, hq, hfq⟩ := List.mem_filterMap.mp hp
  by_cases hpos : 0 < round2 q.2
  · rw [if_pos hpos] at hfq
    simp only [Option.some.injEq] at hfq
    rw [← hfq]
    exact ⟨dec2_round2 _, hpos⟩
  · rw [if_neg hpos] at hfq
    exact absurd hfq (by simp)

theorem goodEntries_creditorsOf (g : Group) : GoodEntries (creditorsOf g) := by
  intro p hp
  obtain ⟨q, hq, hfq⟩ := List.mem_filterMap.mp hp
  by_cases hneg : round2 q.2 < 0
  · rw [if_pos hneg] at hfq
    simp only [Option.some.injEq] at hfq
    rw [← hfq]
    refine ⟨(dec2_round2 q.2).neg, ?_⟩
    show 0 < -round2 q.2
    linarith
  · rw [if_neg hneg] at hfq
    exact absurd hfq (by simp)

theorem goodEntries_of_perm {l l' : List (String × ℚ)} (hp : List.Perm l' l)
    (h : GoodEntries l) : GoodEntries l' :=
  fun q hq => h q (hp.mem_iff.mp hq)

theorem applyTransfer_lookup {users : List (String × ℚ)} {dId cId : String} {bd bc : ℚ}
    (t : ℚ) (hne : dId ≠ cId)
    (hd : dlookup dId users = some bd) (hc : dlookup cId users = some bc) :
    dlookup dId (applyTransfer dId cId t users) = some (round2 (bd - t)) ∧
    dlookup cId (applyTransfer dId cId t users) = some (round2 (bc + t)) ∧
    ∀ k, k ≠ dId → k ≠ cId →
      dlookup k (applyTransfer dId cId t users) = dlookup k users := by
  have hcd : cId ≠ dId := fun he => hne he.symm
  unfold applyTransfer
  refine ⟨?_, ?_, ?_⟩
  · rw [dlookup_dmodify_ne hne, dlookup_dmodify_self, hd]
    rfl
  · rw [dlookup_dmodify_self, dlookup_dmodify_ne hcd, hc]
    rfl
  · intro k hkd hkc
    rw [dlookup_dmodify_ne hkc, dlookup_dmodify_ne hkd]

theorem keys_filterMap_subset (f : String × ℚ → Option (String × ℚ))
    (hf : ∀ p q, f p = some q → q.1 = p.1) (l : List (String × ℚ)) :
    ∀ k ∈ (l.filterMap f).map Prod.fst, k ∈ l.map Prod.fst := by
  intro k hk
  obtain ⟨q, hq, rfl⟩ := List.mem_map.mp hk
  obtain ⟨p, hp, hfp⟩ := List.mem_filterMap.mp hq
  rw [hf p q hfp]
  exact List.mem_map.mpr ⟨p, hp, rfl⟩

theorem debtor_entry_key (p q : String × ℚ)
    (h : (if 0 < round2 p.2 then some (p.1, round2 p.2) else none) = some q) :
    q.1 = p.1 := by
  by_cases hc : 0 < round2 p.2
  · rw [if_pos hc] at h
    simp only [Option.some.injEq] at h
    rw [← h]
  · rw [if_neg hc] at h
    exact absurd h (by simp)

theorem creditor_entry_key (p q : String × ℚ)
    (h : (if round2 p.2 < 0 then some (p.1, -round2 p.2) else none) = some q) :
    q.1 = p.1 := by
  by_cases hc : round2 p.2 < 0
  · rw [if_pos hc] at h
    simp only [Option.some.injEq] at h
    rw [← h]
  · rw [if_neg hc] at h
    exact absurd h (by simp)

theorem keys_nodup_two_filterMaps (f g : String × ℚ → Option (String × ℚ))
    (hf : ∀ p q, f p = some q → q.1 = p.1) (hg : ∀ p q, g p = some q → q.1 = p.1)
    (hdisj : ∀ p, f p = none ∨ g p = none) :
    ∀ l : List (String × ℚ), (l.map Prod.fst).Nodup →
      ((l.filterMap f ++ l.filterMap g).map Prod.fst).Nodup := by
  intro l
  induction l with
  | nil => simp
  | cons p rest ih =>
    intro hnd
    rw [List.map_cons, List.nodup_cons] at hnd
    have hrec := ih hnd.2
    have hsubF := keys_filterMap_subset f hf rest
    have hsubG := keys_filterMap_subset g hg rest
    cases hfp : f p with
    | some q =>
      have hgp : g p = none := by
        rcases hdisj p with h | h
        · rw [hfp] at h
          exact absurd h (by simp)
        · exact h
      rw [List.filterMap_cons_some hfp, List.filterMap_cons_none hgp,
        List.cons_append, List.map_cons, List.nodup_cons]
      refine ⟨?_, hrec⟩
      rw [hf p q hfp]
      intro hmem
      rw [List.map_append] at hmem
      rcases List.mem_append.mp hmem with hm | hm
      · exact hnd.1 (hsubF _ hm)
      · exact hnd.1 (hsubG _ hm)
    | none =>
      rw [List.filterMap_cons_none hfp]
      cases hgp : g p with
      | some q =>
        rw [List.filterMap_cons_some hgp, List.map_append, List.map_cons,
          List.nodup_middle, List.nodup_cons]
        refine ⟨?_, by rw [← List.map_append]; exact hrec⟩
        rw [hg p q hgp]
        intro hmem
        rcases List.mem_append.mp hmem with hm | hm
        · exact hnd.1 (hsubF _ hm)
        · exact hnd.1 (hsubG _ hm)
      | none =>
        rw [List.filterMap_cons_none hgp]
        exact hrec

/-- Distinct user ids give distinct keys across the concatenated debtor and
creditor lists (a user cannot be both, and each appears at most once). -/
theorem keys_nodup_debtors_creditors (g : Group)
    (hnd : (g.users.map Prod.fst).Nodup) :
    ((debtorsOf g ++ creditorsOf g).map Prod.fst).Nodup := by
  apply keys_nodup_two_filterMaps _ _ debtor_entry_key creditor_entry_key ?_ g.users hnd
  intro p
  rcases le_or_lt (round2 p.2) 0 with h | h
  · left
    show (if 0 < round2 p.2 then some (p.1, round2 p.2) else none) = none
    exact if_neg (by linarith)
  · right
    show (if round2 p.2 < 0 then some (p.1, -round2 p.2) else none) = none
    exact if_neg (by linarith)

/-- The core correctness of the greedy loop: with positive whole-cent
entries, pairwise-distinct keys across both lists, entries reflecting the
current ledger balances (debtor entries positively, creditor entries
negatively), and equal debtor and creditor totals, the loop drives every
listed user's balance to zero and touches no other balance. -/
theorem simplifyLoop_settles (currency : String) :
    ∀ (fuel : ℕ) (D C users : List (String × ℚ)),
      GoodEntries D → GoodEntries C →
      ((D ++ C).map Prod.fst).Nodup →
      (∀ p ∈ D, dlookup p.1 users = some p.2) →
      (∀ p ∈ C, dlookup p.1 users = some (-p.2)) →
      sumVals D = sumVals C →
      D.length + C.length ≤ fuel →
      (∀ p ∈ D ++ C, dlookup p.1 (simplifyLoop currency fuel D C users).2 = some 0) ∧
      (∀ k, k ∉ (D ++ C).map Prod.fst →
        dlookup k (simplifyLoop currency fuel D C users).2 = dlookup k users) := by
  intro fuel
  induction fuel with
  | zero =>
    intro D C users hD hC hnd hlD hlC hsum hfuel
    have hDnil : D = [] := List.length_eq_zero.mp (by omega)
    have hCnil : C = [] := List.length_eq_zero.mp (by omega)
    subst hDnil
    subst hCnil
    exact ⟨by intro p hp; simp at hp, fun k _ => rfl⟩
  | succ n ih =>
    intro D C users hD hC hnd hlD hlC hsum hfuel
    match D, C with
    | [], C =>
      have hCnil : C = [] := goodEntries_nil_of_sum_zero hC (by rw [← hsum]; rfl)
      subst hCnil
      rw [simplifyLoop_nil_left]
      exact ⟨by intro p hp; simp at hp, fun k _ => rfl⟩
    | d :: ds, [] =>
      exfalso
      have h0 : sumVals (d :: ds) = 0 := by rw [hsum]; rfl
      have := goodEntries_nil_of_sum_zero hD h0
      simp at this
    | (dId, owe) :: ds, (cId, recv) :: cs =>
      obtain ⟨hdowe, hpowe⟩ := hD _ (List.mem_cons_self _ _)
      obtain ⟨hdrecv, hprecv⟩ := hC _ (List.mem_cons_self _ _)
      dsimp only at hdowe hpowe hdrecv hprecv
      have hnd' : (dId :: (ds.map Prod.fst ++ cId :: cs.map Prod.fst)).Nodup := by
        simpa using hnd
      obtain ⟨hdnot, hndtail⟩ := List.nodup_cons.mp hnd'
      have hne : dId ≠ cId := by
        intro he
        exact hdnot (he ▸ List.mem_append.mpr (Or.inr (List.mem_cons_self _ _)))
      have hdds : dId ∉ ds.map Prod.fst := fun h => hdnot (List.mem_append.mpr (Or.inl h))
      have hdcs : dId ∉ cs.map Prod.fst :=
        fun h => hdnot (List.mem_append.mpr (Or.inr (List.mem_cons_of_mem _ h)))
      have hmid := List.nodup_middle.mp hndtail
      obtain ⟨hcnot, hndrest⟩ := List.nodup_cons.mp hmid
      have hcds : cId ∉ ds.map Prod.fst := fun h => hcnot (List.mem_append.mpr (Or.inl h))
      have hccs : cId ∉ cs.map Prod.fst := fun h => hcnot (List.mem_append.mpr (Or.inr h))
      have hld : dlookup dId users = some owe := hlD _ (List.mem_cons_self _ _)
      have hlc : dlookup cId users = some (-recv) := hlC _ (List.mem_cons_self _ _)
      obtain ⟨hATd, hATc, hATo⟩ := applyTransfer_lookup (round2 (min owe recv)) hne hld hlc
      have htm : round2 (min owe recv) = min owe recv := hdowe.min hdrecv
      have hdt : Dec2 (round2 (min owe recv)) := dec2_round2 _
      have hno : round2 (owe - round2 (min owe recv)) = owe - min owe recv := by
        rw [htm]
        exact hdowe.sub (htm ▸ hdt)
      have hnr : round2 (recv - round2 (min owe recv)) = recv - min owe recv := by
        rw [htm]
        exact hdrecv.sub (htm ▸ hdt)
      have hATd' : dlookup dId (applyTransfer dId cId (round2 (min owe recv)) users) =
          some (owe - min owe recv) := by
        rw [hATd, hno]
      have hargc : round2 (-recv + round2 (min owe recv)) = -(recv - min owe recv) := by
        have hd2 : Dec2 (-recv + round2 (min owe recv)) := hdrecv.neg.add hdt
        rw [show round2 (-recv + round2 (min owe recv)) = -recv + round2 (min owe recv)
          from hd2, htm]
        ring
      have hATc' : dlookup cId (applyTransfer dId cId (round2 (min owe recv)) users) =
          some (-(recv - min owe recv)) := by
        rw [hATc, hargc]
      rw [sumVals_cons, sumVals_cons] at hsum
      dsimp only at hsum
      have hlD' : ∀ p ∈ ds,
          dlookup p.1 (applyTransfer dId cId (round2 (min owe recv)) users) = some p.2 := by
        intro p hp
        have hpd : p.1 ≠ dId := fun he => hdds (he ▸ List.mem_map.mpr ⟨p, hp, rfl⟩)
        have hpc : p.1 ≠ cId := fun he => hcds (he ▸ List.mem_map.mpr ⟨p, hp, rfl⟩)
        rw [hATo p.1 hpd hpc]
        exact hlD p (List.mem_cons_of_mem _ hp)
      have hlC'tail : ∀ p ∈ cs,
          dlookup p.1 (applyTransfer dId cId (round2 (min owe recv)) users) =
            some (-p.2) := by
        intro p hp
        have hpd : p.1 ≠ dId := fun he => hdcs (he ▸ List.mem_map.mpr ⟨p, hp, rfl⟩)
        have hpc : p.1 ≠ cId := fun he => hccs (he ▸ List.mem_map.mpr ⟨p, hp, rfl⟩)
        rw [hATo p.1 hpd hpc]
        exact hlC p (List.mem_cons_of_mem _ hp)
      have hfuel' : ds.length + cs.length + 2 ≤ n + 1 := by
        simp only [List.length_cons] at hfuel
        omega
      rw [simplifyLoop]
      dsimp only
      rcases lt_trichotomy owe recv with hlt | heqc | hgt
      · -- owe < recv: the debtor entry is retired, the creditor entry shrinks
        have hmineq : min owe recv = owe := min_eq_left (le_of_lt hlt)
        have hdrop1 : |round2 (owe - round2 (min owe recv))| < eps := by
          rw [hno, hmineq, sub_self]
          norm_num [eps]
        have hkeep2 : ¬ |round2 (recv - round2 (min owe recv))| < eps := by
          rw [hnr, hmineq]
          intro habs
          have hd2 : Dec2 (recv - owe) := hdrecv.sub hdowe
          have := (dec2_abs_lt_eps hd2).mp habs
          linarith
        rw [if_pos hdrop1, if_neg hkeep2]
        obtain ⟨hz, hu⟩ := ih ds ((cId, round2 (recv - round2 (min owe recv))) :: cs)
          (applyTransfer dId cId (round2 (min owe recv)) users)
          (goodEntries_tail hD)
          (by
            intro p hp
            rcases List.mem_cons.mp hp with hp | hp
            · rw [hp]
              refine ⟨dec2_round2 _, ?_⟩
              show 0 < round2 (recv - round2 (min owe recv))
              rw [hnr, hmineq]
              linarith
            · exact hC p (List.mem_cons_of_mem _ hp))
          (by simpa using hndtail)
          hlD'
          (by
            intro p hp
            rcases List.mem_cons.mp hp with hp | hp
            · rw [hp]
              show dlookup cId (applyTransfer dId cId (round2 (min owe recv)) users) =
                some (-(round2 (recv - round2 (min owe recv))))
              rw [hnr, hmineq]
              rw [hmineq] at hATc'
              exact hATc'
            · exact hlC'tail p hp)
          (by
            rw [sumVals_cons, hnr, hmineq]
            dsimp only
            linarith)
          (by
            simp only [List.length_cons]
            omega)
        constructor
        · intro p hp
          rcases List.mem_append.mp hp with hp | hp
          · rcases List.mem_cons.mp hp with hp | hp
            · rw [hp]
              show dlookup dId (simplifyLoop currency n ds
                ((cId, round2 (recv - round2 (min owe recv))) :: cs)
                (applyTransfer dId cId (round2 (min owe recv)) users)).2 = some 0
              rw [hu dId ?_]
              · rw [hATd', hmineq, sub_self]
              · intro hmem
                simp only [List.map_append, List.map_cons, List.mem_append,
                  List.mem_cons] at hmem
                rcases hmem with hm | hm | hm
                · exact hdds hm
                · exact hne hm
                · exact hdcs hm
            · exact hz p (List.mem_append.mpr (Or.inl hp))
          · rcases List.mem_cons.mp hp with hp | hp
            · rw [hp]
              show dlookup cId (simplifyLoop currency n ds
                ((cId, round2 (recv - round2 (min owe recv))) :: cs)
                (applyTransfer dId cId (round2 (min owe recv)) users)).2 = some 0
              exact hz ((cId, round2 (recv - round2 (min owe recv))))
                (List.mem_append.mpr (Or.inr (List.mem_cons_self _ _)))
            · exact hz p (List.mem_append.mpr (Or.inr (List.mem_cons_of_mem _ hp)))
        · intro k hk
          simp only [List.map_append, List.map_cons, List.mem_append, List.mem_cons,
            not_or] at hk
          obtain ⟨⟨hkd, hkds⟩, hkc, hkcs⟩ := hk
          rw [hu k ?_]
          · exact hATo k hkd hkc
          · intro hmem
            simp only [List.map_append, List.map_cons, List.mem_append,
              List.mem_cons] at hmem
            rcases hmem with hm | hm | hm
            · exact hkds hm
            · exact hkc hm
            · exact hkcs hm
      · -- owe = recv: both entries are retired
        have hmineq : min owe recv = owe := min_eq_left (le_of_eq heqc)
        have hdrop1 : |round2 (owe - round2 (min owe recv))| < eps := by
          rw [hno, hmineq, sub_self]
          norm_num [eps]
        have hdrop2 : |round2 (recv - round2 (min owe recv))| < eps := by
          rw [hnr, hmineq, ← heqc, sub_self]
          norm_num [eps]
        rw [if_pos hdrop1, if_pos hdrop2]
        obtain ⟨hz, hu⟩ := ih ds cs
          (applyTransfer dId cId (round2 (min owe recv)) users)
          (goodEntries_tail hD) (goodEntries_tail hC)
          (by
            have : (ds.map Prod.fst ++ cs.map Prod.fst).Nodup := hndrest
            simpa using this)
          hlD' hlC'tail
          (by linarith)
          (by omega)
        constructor
        · intro p hp
          rcases List.mem_append.mp hp with hp | hp
          · rcases List.mem_cons.mp hp with hp | hp
            · rw [hp]
              show dlookup dId (simplifyLoop currency n ds cs
                (applyTransfer dId cId (round2 (min owe recv)) users)).2 = some 0
              rw [hu dId ?_]
              · rw [hATd', hmineq, sub_self]
              · intro hmem
                simp only [List.map_append, List.mem_append] at hmem
                rcases hmem with hm | hm
                · exact hdds hm
                · exact hdcs hm
            · exact hz p (List.mem_append.mpr (Or.inl hp))
          · rcases List.mem_cons.mp hp with hp | hp
            · rw [hp]
              show dlookup cId (simplifyLoop currency n ds cs
                (applyTransfer dId cId (round2 (min owe recv)) users)).2 = some 0
              rw [hu cId ?_]
              · rw [hATc']
                have : -(recv - min owe recv) = 0 := by
                  rw [hmineq, ← heqc]
                  ring
                rw [this]
              · intro hmem
                simp only [List.map_append, List.mem_append] at hmem
                rcases hmem with hm | hm
                · exact hcds hm
                · exact hccs hm
            · exact hz p (List.mem_append.mpr (Or.inr hp))
        · intro k hk
          simp only [List.map_append, List.map_cons, List.mem_append, List.mem_cons,
            not_or] at hk
          obtain ⟨⟨hkd, hkds⟩, hkc, hkcs⟩ := hk
          rw [hu k ?_]
          · exact hATo k hkd hkc
          · intro hmem
            simp only [List.map_append, List.mem_append] at hmem
            rcases hmem with hm | hm
            · exact hkds hm
            · exact hkcs hm
      · -- recv < owe: the creditor entry is retired, the debtor entry shrinks
        have hmineq : min owe recv = recv := min_eq_right (le_of_lt hgt)
        have hkeep1 : ¬ |round2 (owe - round2 (min owe recv))| < eps := by
          rw [hno, hmineq]
          intro habs
          have hd2 : Dec2 (owe - recv) := hdowe.sub hdrecv
          have := (dec2_abs_lt_eps hd2).mp habs
          linarith
        have hdrop2 : |round2 (recv - round2 (min owe recv))| < eps := by
          rw [hnr, hmineq, sub_self]
          norm_num [eps]
        rw [if_neg hkeep1, if_pos hdrop2]
        obtain ⟨hz, hu⟩ := ih ((dId, round2 (owe - round2 (min owe recv))) :: ds) cs
          (applyTransfer dId cId (round2 (min owe recv)) users)
          (by
            intro p hp
            rcases List.mem_cons.mp hp with hp | hp
            · rw [hp]
              refine ⟨dec2_round2 _, ?_⟩
              show 0 < round2 (owe - round2 (min owe recv))
              rw [hno, hmineq]
              linarith
            · exact hD p (List.mem_cons_of_mem _ hp))
          (goodEntries_tail hC)
          (by
            have : (dId :: (ds.map Prod.fst ++ cs.map Prod.fst)).Nodup := by
              rw [List.nodup_cons]
              refine ⟨?_, hndrest⟩
              intro hmem
              rcases List.mem_append.mp hmem with hm | hm
              · exact hdds hm
              · exact hdcs hm
            simpa using this)
          (by
            intro p hp
            rcases List.mem_cons.mp hp with hp | hp
            · rw [hp]
              show dlookup dId (applyTransfer dId cId (round2 (min owe recv)) users) =
                some (round2 (owe - round2 (min owe recv)))
              rw [hno, hmineq]
              rw [hmineq] at hATd'
              exact hATd'
            · exact hlD' p hp)
          hlC'tail
          (by
            rw [sumVals_cons, hno, hmineq]
            dsimp only
            linarith)
          (by
            simp only [List.length_cons]
            omega)
        constructor
        · intro p hp
          rcases List.mem_append.mp hp with hp | hp
          · rcases List.mem_cons.mp hp with hp | hp
            · rw [hp]
              show dlookup dId (simplifyLoop currency n
                ((dId, round2 (owe - round2 (min owe recv))) :: ds) cs
                (applyTransfer dId cId (round2 (min owe recv)) users)).2 = some 0
              exact hz ((dId, round2 (owe - round2 (min owe recv))))
                (List.mem_append.mpr (Or.inl (List.mem_cons_self _ _)))
            · exact hz p (List.mem_append.mpr (Or.inl (List.mem_cons_of_mem _ hp)))
          · rcases List.mem_cons.mp hp with hp | hp
            · rw [hp]
              show dlookup cId (simplifyLoop currency n
                ((dId, round2 (owe - round2 (min owe recv))) :: ds) cs
                (applyTransfer dId cId (round2 (min owe recv)) users)).2 = some 0
              rw [hu cId ?_]
              · rw [hATc', hmineq, sub_self, neg_zero]
              · intro hmem
                simp only [List.map_append, List.map_cons, List.mem_append,
                  List.mem_cons] at hmem
                rcases hmem with (hm | hm) | hm
                · exact hne hm.symm
                · exact hcds hm
                · exact hccs hm
            · exact hz p (List.mem_append.mpr (Or.inr hp))
        · intro k hk
          simp only [List.map_append, List.map_cons, List.mem_append, List.mem_cons,
            not_or] at hk
          obtain ⟨⟨hkd, hkds⟩, hkc, hkcs⟩ := hk
          rw [hu k ?_]
          · exact hATo k hkd hkc
          · intro hmem
            simp only [List.map_append, List.map_cons, List.mem_append,
              List.mem_cons] at hmem
            rcases hmem with (hm | hm) | hm
            · exact hkd hm
            · exact hkds hm
            · exact hkcs hm

/-! ### Claim theorems

Batteries marks the `Rat` arithmetic operations irreducible; witnesses and
counterexamples evaluate the embedding on concrete inputs, so restore the
default reducibility for kernel evaluation by `decide`. -/

unseal Rat.mul Rat.inv Rat.add Rat.sub Rat.ofScientific

/-- Claim C1, counterexample: an `add_expense` call with strategy `exact`
and amount `0.01`, exact amounts `{A: 0.004, B: 0.004}`, succeeds (the sum
`0.008` rounds to `0.01`, within `1e-9` of the amount) but each share is
individually rounded to `0.00`, so the shares of the resulting expense sum
to `0`, not to the rounded amount `0.01`. -/
theorem c1_counterexample :
    (addExpense (addUser (addUser (mkGroup "USD") "A") "B")
      (1/100) "exact" none (some [("A", 1/250), ("B", 1/250)]) none "" none none).1 =
      .ok ⟨"", 1/100, "USD", "exact", [("A", 0), ("B", 0)], none⟩ ∧
    round2 (sumVals [("A", (0:ℚ)), ("B", 0)]) ≠ round2 (1/100) := by
  constructor
  · decide
  · decide

/-- Claim C1 (amended): for every successful `add_expense` call with
strategy `equal` or `percentage`, and with strategy `exact` whenever every
caller-supplied exact amount is already a whole number of cents, the sum of
the share amounts of the resulting expense equals the expense's (rounded)
amount exactly — hence also after a further rounding.  (The unrestricted
claim fails for `exact` with sub-cent inputs: see the counterexample.) -/
theorem c1_conservation {g : Group} {a : ℚ} {st : String} {us : Option (List String)}
    {ex pc : Option (List (String × ℚ))} {d : String} {pb c : Option String}
    {e : Expense} {g' : Group}
    (h : addExpense g a st us ex pc d pb c = (.ok e, g'))
    (hstrat : lowerString st = "equal" ∨ lowerString st = "percentage" ∨
      (lowerString st = "exact" ∧ ∀ p ∈ ex.getD [], Dec2 p.2)) :
    round2 (sumVals e.shares) = e.amount ∧ sumVals e.shares = e.amount := by
  obtain ⟨hcs, hamt⟩ := addExpense_ok_shares h
  have hsum : sumVals e.shares = round2 a := by
    rcases hstrat with hs | hs | ⟨hs, hdec⟩
    · rw [hs] at hcs
      exact computeShares_equal_sum hcs
    · rw [hs] at hcs
      exact computeShares_pct_sum hcs
    · rw [hs] at hcs
      rcases ex with _ | exl
      · rw [computeShares_exact_none] at hcs
        exact absurd hcs (by simp)
      · exact computeShares_exact_sum (by simpa using hdec) hcs
  refine ⟨?_, by rw [hsum, hamt]⟩
  rw [hsum, hamt]
  exact dec2_round2 a

/-- Claim C1 witness: the equal split of `100` across three users conserves
the amount (`33.33 + 33.33 + 33.34 = 100.00`). -/
theorem c1_conservation_witness :
    addExpense (addUser (addUser (addUser (mkGroup "USD") "A") "B") "C")
      100 "equal" (some ["A", "B", "C"]) none none "" none none =
      (.ok ⟨"", 100, "USD", "equal",
          [("A", 3333/100), ("B", 3333/100), ("C", 1667/50)], none⟩,
        ⟨"USD", [("A", 3333/100), ("B", 3333/100), ("C", 1667/50)],
          [⟨"", 100, "USD", "equal",
            [("A", 3333/100), ("B", 3333/100), ("C", 1667/50)], none⟩],
          [⟨none, none, 100, "USD", "Expense:  (equal)"⟩]⟩) ∧
    sumVals [("A", (3333:ℚ)/100), ("B", 3333/100), ("C", 1667/50)] = 100 := by
  have h : addExpense (addUser (addUser (addUser (mkGroup "USD") "A") "B") "C")
      100 "equal" (some ["A", "B", "C"]) none none "" none none =
      (.ok ⟨"", 100, "USD", "equal",
          [("A", 3333/100), ("B", 3333/100), ("C", 1667/50)], none⟩,
        ⟨"USD", [("A", 3333/100), ("B", 3333/100), ("C", 1667/50)],
          [⟨"", 100, "USD", "equal",
            [("A", 3333/100), ("B", 3333/100), ("C", 1667/50)], none⟩],
          [⟨none, none, 100, "USD", "Expense:  (equal)"⟩]⟩) := by decide
  refine ⟨h, ?_⟩
  have hc := c1_conservation h (Or.inl (by decide))
  exact hc.2.trans (by decide)

/-- Claim C3, counterexample: `add_expense` appends the expense record and
applies share balances *before* checking membership, so an `UnknownUser`
error leaves the group mutated: here the call on a group containing only
user `A`, splitting equally over the unknown user `B`, errors but the
returned state has gained an expense. -/
theorem c3_counterexample :
    (addExpense (addUser (mkGroup "USD") "A") 10 "equal" (some ["B"]) none none
      "" none none).1 = .error .unknownUser ∧
    (addExpense (addUser (mkGroup "USD") "A") 10 "equal" (some ["B"]) none none
      "" none none).2 ≠ addUser (mkGroup "USD") "A" := by
  constructor
  · decide
  · decide

/-- Claim C3 (amended): every error *except* an `UnknownUser` raised inside
`add_expense`'s application phase leaves the group state unmodified —
`InvalidSplit` and `CurrencyMismatch` are checked before any mutation of
`add_expense`, and all four `settle_debt` errors are checked before its
mutation.  (`UnknownUser` inside `add_expense` violates the claim: see the
counterexample.) -/
theorem c3_validation_before_mutation :
    (∀ (g : Group) (a : ℚ) (st : String) (us : Option (List String))
      (ex pc : Option (List (String × ℚ))) (d : String) (pb c : Option String) (e : Err),
      (addExpense g a st us ex pc d pb c).1 = .error e → e ≠ .unknownUser →
      (addExpense g a st us ex pc d pb c).2 = g) ∧
    (∀ (g : Group) (uid : String) (a : ℚ) (t : Option String) (e : Err),
      (settleDebt g uid a t).1 = .error e → (settleDebt g uid a t).2 = g) := by
  constructor
  · intro g a st us ex pc d pb c e h hne
    unfold addExpense at h ⊢
    dsimp only at h ⊢
    by_cases hcur : c.getD g.currency ≠ g.currency
    · rw [if_pos hcur]
    · rw [if_neg hcur] at h ⊢
      cases hcs : computeShares a (lowerString st) us ex pc with
      | error err => rfl
      | ok shares =>
        have h' : (applyExpensePhase g
            ⟨d, round2 a, c.getD g.currency, lowerString st, shares, pb⟩ a pb).1 =
            .error e := by
          rw [hcs] at h
          exact h
        rcases applyExpensePhase_cases g
            ⟨d, round2 a, c.getD g.currency, lowerString st, shares, pb⟩ a pb with hc | hc
        · rw [h'] at hc
          exact absurd hc (by simp)
        · rw [h'] at hc
          simp only [Except.error.injEq] at hc
          exact absurd hc hne
  · intro g uid a t e h
    unfold settleDebt at h ⊢
    cases hlook : dlookup uid g.users with
    | none => rfl
    | some bal =>
      rw [hlook] at h
      dsimp only at h ⊢
      by_cases h1 : round2 a < 0
      · rw [if_pos h1]
      · rw [if_neg h1] at h ⊢
        by_cases h2 : 0 < bal ∧ bal + eps < round2 a
        · rw [if_pos h2]
        · rw [if_neg h2] at h ⊢
          by_cases h3 : bal ≤ 0 ∧ 0 < round2 a
          · rw [if_pos h3]
          · rw [if_neg h3] at h
            exact absurd h (by simp)

/-- Claim C3 witness: a negative-amount settlement fails with
`InvalidAmount` and leaves the state unchanged, and a mismatched-currency
expense fails with `CurrencyMismatch` and leaves the state unchanged. -/
theorem c3_witness :
    ((settleDebt ⟨"USD", [("A", 5)], [], []⟩ "A" (-5) none).1 = .error .invalidAmount ∧
      (settleDebt ⟨"USD", [("A", 5)], [], []⟩ "A" (-5) none).2 = ⟨"USD", [("A", 5)], [], []⟩) ∧
    ((addExpense ⟨"USD", [("A", 5)], [], []⟩ 10 "equal" (some ["A"]) none none
        "" none (some "EUR")).1 = .error .currencyMismatch ∧
      (addExpense ⟨"USD", [("A", 5)], [], []⟩ 10 "equal" (some ["A"]) none none
        "" none (some "EUR")).2 = ⟨"USD", [("A", 5)], [], []⟩) :=
  ⟨⟨by decide, c3_validation_before_mutation.2 ⟨"USD", [("A", 5)], [], []⟩ "A" (-5) none
      .invalidAmount (by decide)⟩,
    ⟨by decide, c3_validation_before_mutation.1 ⟨"USD", [("A", 5)], [], []⟩ 10 "equal"
      (some ["A"]) none none "" none (some "EUR") .currencyMismatch (by decide) (by decide)⟩⟩

/-- Claim C5, counterexample: with balance `0` (zero or negative) and the
positive amount `0.001`, the claim says `settle_debt` raises `NothingOwed`;
the code first rounds the amount to `0.00` and then succeeds. -/
theorem c5_counterexample :
    ((0:ℚ) ≤ 0 ∧ (0:ℚ) < 1/1000) ∧
    (settleDebt ⟨"USD", [("A", 0)], [], []⟩ "A" (1/1000) none).1 =
      .ok ⟨some "A", none, 0, "USD", "Settlement"⟩ := by
  constructor
  · constructor
    · exact le_refl 0
    · norm_num
  · decide

/-- Claim C5 (amended): for a user present in the group with balance `bal`,
with `a' := round2 amount` (the code rounds *before* validating),
`settle_debt` raises `InvalidAmount` iff `a' < 0`, `OverSettlement` iff
`bal > 0` and `a' > bal + 1e-9`, `NothingOwed` iff `bal ≤ 0` and `a' > 0`,
and otherwise succeeds, setting the balance to `round2 (bal - a')` (which
is `bal - a'` on the 2-decimal balances the program maintains). -/
theorem c5_settle_conditions (g : Group) (uid : String) (bal a : ℚ) (t : Option String)
    (hlook : dlookup uid g.users = some bal) :
    ((settleDebt g uid a t).1 = .error .invalidAmount ↔ round2 a < 0) ∧
    ((settleDebt g uid a t).1 = .error .overSettlement ↔ 0 < bal ∧ bal + eps < round2 a) ∧
    ((settleDebt g uid a t).1 = .error .nothingOwed ↔ bal ≤ 0 ∧ 0 < round2 a) ∧
    (¬ round2 a < 0 → ¬ (0 < bal ∧ bal + eps < round2 a) → ¬ (bal ≤ 0 ∧ 0 < round2 a) →
      (settleDebt g uid a t).1 = .ok ⟨some uid, t, round2 a, g.currency, "Settlement"⟩ ∧
      dlookup uid (settleDebt g uid a t).2.users = some (round2 (bal - round2 a))) := by
  have heps : (0:ℚ) < eps := by norm_num [eps]
  rw [settleDebt_eq hlook]
  by_cases h1 : round2 a < 0
  · rw [if_pos h1]
    refine ⟨by simp [h1], ?_, ?_, fun hn _ _ => absurd h1 hn⟩
    · refine iff_of_false (by simp) ?_
      rintro ⟨hb, hlt⟩
      linarith
    · refine iff_of_false (by simp) ?_
      rintro ⟨hb, hlt⟩
      linarith
  · rw [if_neg h1]
    by_cases h2 : 0 < bal ∧ bal + eps < round2 a
    · rw [if_pos h2]
      refine ⟨iff_of_false (by simp) h1, by simp [h2], ?_,
        fun _ hn _ => absurd h2 hn⟩
      refine iff_of_false (by simp) ?_
      rintro ⟨hb, _⟩
      linarith [h2.1]
    · rw [if_neg h2]
      by_cases h3 : bal ≤ 0 ∧ 0 < round2 a
      · rw [if_pos h3]
        exact ⟨iff_of_false (by simp) h1, iff_of_false (by simp) h2,
          by simp [h3], fun _ _ hn => absurd h3 hn⟩
      · rw [if_neg h3]
        refine ⟨iff_of_false (by simp) h1, iff_of_false (by simp) h2,
          iff_of_false (by simp) h3, fun _ _ _ => ⟨rfl, ?_⟩⟩
        exact dlookup_dset_self uid (round2 (bal - round2 a)) g.users

/-- Claim C5 witness: a user owing `5` who tries to settle `7` gets
`OverSettlement`, by the amended condition `5 + 1e-9 < round2 7`. -/
theorem c5_settle_conditions_witness :
    dlookup "A" (Group.mk "USD" [("A", 5)] [] []).users = some 5 ∧
    (settleDebt ⟨"USD", [("A", 5)], [], []⟩ "A" 7 none).1 = .error .overSettlement :=
  ⟨by decide,
    (c5_settle_conditions ⟨"USD", [("A", 5)], [], []⟩ "A" 5 7 none (by decide)).2.1.mpr
      (by constructor <;> decide)⟩

/-- Claim C9: `settle_debt` rounds the requested amount before validating,
so for a user whose (2-decimal, as always maintained by the program)
balance is zero or negative, a positive amount under half a cent does not
raise `NothingOwed`: the call succeeds, leaves the balance unchanged, and
appends a zero-amount "Settlement" transaction to the history. -/
theorem c9_settle_small_amount (g : Group) (uid : String) (bal a : ℚ)
    (t : Option String) (hlook : dlookup uid g.users = some bal) (hbal : bal ≤ 0)
    (hdec : Dec2 bal) (h0 : 0 < a) (hsmall : a < 1/200) :
    (settleDebt g uid a t).1 = .ok ⟨some uid, t, 0, g.currency, "Settlement"⟩ ∧
    dlookup uid (settleDebt g uid a t).2.users = some bal ∧
    (settleDebt g uid a t).2.transactions =
      g.transactions ++ [⟨some uid, t, 0, g.currency, "Settlement"⟩] := by
  have hra : round2 a = 0 := round2_small_pos h0 hsmall
  rw [settleDebt_eq hlook, hra]
  rw [if_neg (by norm_num), if_neg ?hover, if_neg (by simp)]
  case hover =>
    rintro ⟨hb, hlt⟩
    have heps : (0:ℚ) < eps := by norm_num [eps]
    linarith
  refine ⟨rfl, ?_, rfl⟩
  have : round2 (bal - 0) = bal := by
    rw [sub_zero]
    exact hdec
  rw [show dlookup uid (dset uid (round2 (bal - 0)) g.users) = some (round2 (bal - 0)) from
    dlookup_dset_self uid (round2 (bal - 0)) g.users, this]

/-- Claim C9 witness: balance `-3`, amount `0.001`: the settlement succeeds
with a zero-amount transaction and the balance is untouched. -/
theorem c9_settle_small_amount_witness :
    (dlookup "A" (Group.mk "USD" [("A", -3)] [] []).users = some (-3) ∧
      (-3:ℚ) ≤ 0 ∧ Dec2 (-3:ℚ) ∧ (0:ℚ) < 1/1000 ∧ (1:ℚ)/1000 < 1/200) ∧
    (settleDebt ⟨"USD", [("A", -3)], [], []⟩ "A" (1/1000) none).1 =
      .ok ⟨some "A", none, 0, "USD", "Settlement"⟩ ∧
    dlookup "A" (settleDebt ⟨"USD", [("A", -3)], [], []⟩ "A" (1/1000) none).2.users =
      some (-3) :=
  ⟨⟨by decide, by norm_num, by decide, by norm_num, by norm_num⟩,
    ((c9_settle_small_amount ⟨"USD", [("A", -3)], [], []⟩ "A" (-3) (1/1000) none
      (by decide) (by norm_num) (by decide) (by norm_num) (by norm_num)).1),
    ((c9_settle_small_amount ⟨"USD", [("A", -3)], [], []⟩ "A" (-3) (1/1000) none
      (by decide) (by norm_num) (by decide) (by norm_num) (by norm_num)).2.1)⟩

/-- Claim C4, counterexample: `settle_debt` with a destination user only
debits the source user; the destination's balance is untouched, so the net
balance delta across the two involved users is `-amount`, not zero.  Here
`A` (owing 10) settles 10 to `B` (owed 10): `A` goes from `10` to `0`, `B`
stays at `-10`, and the deltas sum to `-10 ≠ 0`. -/
theorem c4_counterexample :
    (settleDebt ⟨"USD", [("A", 10), ("B", -10)], [], []⟩ "A" 10 (some "B")).1 =
      .ok ⟨some "A", some "B", 10, "USD", "Settlement"⟩ ∧
    dlookup "A" (settleDebt ⟨"USD", [("A", 10), ("B", -10)], [], []⟩ "A" 10
      (some "B")).2.users = some 0 ∧
    dlookup "B" (settleDebt ⟨"USD", [("A", 10), ("B", -10)], [], []⟩ "A" 10
      (some "B")).2.users = some (-10) ∧
    ((0:ℚ) - 10) + ((-10:ℚ) - (-10)) ≠ 0 := by
  refine ⟨by decide, by decide, by decide, by norm_num⟩

/-- Claim C4 (amended): a simplification transfer is balance-preserving —
`applyTransfer` (the exact balance update performed for every transfer the
loop of `simplify_debts` emits) decreases the debtor and increases the
creditor by the same amount, so the two deltas cancel.  A successful
`settle_debt`, by contrast, changes only the paying user's balance
(decreasing it by the rounded amount) and leaves the destination user's
balance untouched. -/
theorem c4_transfer_balanced :
    (∀ (users : List (String × ℚ)) (dId cId : String) (t bd bc : ℚ),
      dId ≠ cId → dlookup dId users = some bd → dlookup cId users = some bc →
      Dec2 bd → Dec2 bc → Dec2 t →
      dlookup dId (applyTransfer dId cId t users) = some (bd - t) ∧
      dlookup cId (applyTransfer dId cId t users) = some (bc + t) ∧
      ((bd - t) - bd) + ((bc + t) - bc) = 0) ∧
    (∀ (g : Group) (uid tUid : String) (bal a : ℚ) (tx : Transaction) (g' : Group),
      dlookup uid g.users = some bal → tUid ≠ uid →
      settleDebt g uid a (some tUid) = (.ok tx, g') →
      dlookup uid g'.users = some (round2 (bal - round2 a)) ∧
      dlookup tUid g'.users = dlookup tUid g.users) := by
  constructor
  · intro users dId cId t bd bc hne hd hc hbd hbc ht
    have hcd : cId ≠ dId := fun he => hne he.symm
    unfold applyTransfer
    refine ⟨?_, ?_, by ring⟩
    · rw [dlookup_dmodify_ne hne, dlookup_dmodify_self, hd]
      have : round2 (bd - t) = bd - t := hbd.sub ht
      simp [this]
    · rw [dlookup_dmodify_self, dlookup_dmodify_ne hcd, hc]
      have : round2 (bc + t) = bc + t := hbc.add ht
      simp [this]
  · intro g uid tUid bal a tx g' hlook hne h
    rw [settleDebt_eq hlook] at h
    by_cases h1 : round2 a < 0
    · rw [if_pos h1] at h
      exact absurd h (by simp)
    rw [if_neg h1] at h
    by_cases h2 : 0 < bal ∧ bal + eps < round2 a
    · rw [if_pos h2] at h
      exact absurd h (by simp)
    rw [if_neg h2] at h
    by_cases h3 : bal ≤ 0 ∧ 0 < round2 a
    · rw [if_pos h3] at h
      exact absurd h (by simp)
    rw [if_neg h3] at h
    injection h with h1' h2'
    rw [← h2']
    constructor
    · exact dlookup_dset_self uid (round2 (bal - round2 a)) g.users
    · exact dlookup_dset_ne hne (round2 (bal - round2 a)) g.users

/-- Claim C4 witness: the transfer of `10` from `A` to `B` on balances
`{A: 10, B: -10}` yields deltas `-10` and `+10`, summing to zero; and a
settlement of `4` by `A` towards `B` leaves `B`'s balance unchanged. -/
theorem c4_transfer_balanced_witness :
    (dlookup "A" (applyTransfer "A" "B" 10 [("A", 10), ("B", -10)]) = some (10 - 10) ∧
      dlookup "B" (applyTransfer "A" "B" 10 [("A", 10), ("B", -10)]) = some (-10 + 10) ∧
      (((10:ℚ) - 10) - 10) + (((-10:ℚ) + 10) - (-10)) = 0) ∧
    (dlookup "A" (settleDebt ⟨"USD", [("A", 10), ("B", -10)], [], []⟩ "A" 4
        (some "B")).2.users = some (round2 (10 - round2 4)) ∧
      dlookup "B" (settleDebt ⟨"USD", [("A", 10), ("B", -10)], [], []⟩ "A" 4
        (some "B")).2.users =
        dlookup "B" (Group.mk "USD" [("A", 10), ("B", -10)] [] []).users) :=
  ⟨c4_transfer_balanced.1 [("A", 10), ("B", -10)] "A" "B" 10 10 (-10)
      (by decide) (by decide) (by decide) (by decide) (by decide) (by decide),
    c4_transfer_balanced.2 ⟨"USD", [("A", 10), ("B", -10)], [], []⟩ "A" "B" 10 4
      ⟨some "A", some "B", 4, "USD", "Settlement"⟩
      ⟨"USD", [("A", 6), ("B", -10)], [],
        [⟨some "A", some "B", 4, "USD", "Settlement"⟩]⟩
      (by decide) (by decide) (by decide)⟩

/-- Claim C6, counterexample: the exact-split validation compares the
rounded sum against the *raw* amount, not the rounded amount.  For amount
`0.011` and exact amounts `{A: 0.01}`, the rounded sum `0.01` and the
rounded amount `0.01` coincide (difference `0 ≤ 1e-9`), so the claim says
the call succeeds; the code compares `|0.01 - 0.011| = 0.001 > 1e-9` and
raises `InvalidSplit`. -/
theorem c6_counterexample :
    (addExpense (addUser (mkGroup "USD") "A") (11/1000) "exact" none
      (some [("A", 1/100)]) none "" none none).1 = .error .invalidSplit ∧
    |round2 (sumVals [("A", (1:ℚ)/100)]) - round2 (11/1000)| ≤ eps := by
  constructor
  · decide
  · decide

/-- Claim C6 (amended): for a non-empty exact-amount mapping (and matching
currency), `add_expense` with strategy `exact` raises `InvalidSplit` iff
the sum of the mapping's values, rounded to 2 decimals, differs from the
*raw* expense amount by more than `1e-9`; on success, each share is the
caller-supplied value individually rounded to 2 decimals. -/
theorem c6_exact_validation (g : Group) (a : ℚ) (st : String)
    (us : Option (List String)) (q : String × ℚ) (ex' : List (String × ℚ))
    (pc : Option (List (String × ℚ))) (d : String) (pb c : Option String)
    (hst : lowerString st = "exact") (hcur : c.getD g.currency = g.currency) :
    ((addExpense g a st us (some (q :: ex')) pc d pb c).1 = .error .invalidSplit ↔
      eps < |round2 (sumVals (q :: ex')) - a|) ∧
    (∀ (e : Expense) (g' : Group),
      addExpense g a st us (some (q :: ex')) pc d pb c = (.ok e, g') →
      e.shares = (q :: ex').map (fun p => (p.1, round2 p.2))) := by
  have hmain : addExpense g a st us (some (q :: ex')) pc d pb c =
      (if eps < |round2 (sumVals (q :: ex')) - a| then
        ((.error .invalidSplit : Except Err Expense), g)
       else applyExpensePhase g
        ⟨d, round2 a, c.getD g.currency, lowerString st,
          (q :: ex').map (fun p => (p.1, round2 p.2)), pb⟩ a pb) := by
    unfold addExpense
    dsimp only
    rw [if_neg (not_ne_iff.mpr hcur), hst, computeShares_exact_cons]
    by_cases hval : eps < |round2 (sumVals (q :: ex')) - a|
    · rw [if_pos hval, if_pos hval]
    · rw [if_neg hval, if_neg hval]
  constructor
  · rw [hmain]
    by_cases hval : eps < |round2 (sumVals (q :: ex')) - a|
    · rw [if_pos hval]
      simp [hval]
    · rw [if_neg hval]
      refine iff_of_false ?_ hval
      rcases applyExpensePhase_cases g
          ⟨d, round2 a, c.getD g.currency, lowerString st,
            (q :: ex').map (fun p => (p.1, round2 p.2)), pb⟩ a pb with hc | hc
      · rw [hc]
        simp
      · rw [hc]
        simp
  · intro e g' h
    rw [hmain] at h
    by_cases hval : eps < |round2 (sumVals (q :: ex')) - a|
    · rw [if_pos hval] at h
      exact absurd h (by simp)
    · rw [if_neg hval] at h
      have := applyExpensePhase_ok h
      rw [this]

/-- Claim C6 witness: the spec's exact-split passthrough example,
`allocate(100, "exact", {A: 70, B: 30})`: validation passes and each share
is the supplied value rounded. -/
theorem c6_exact_validation_witness :
    (lowerString "exact" = "exact" ∧
      (none : Option String).getD ((mkGroup "USD").currency) = "USD") ∧
    ¬ (addExpense (addUser (addUser (mkGroup "USD") "A") "B") 100 "exact" none
        (some [("A", 70), ("B", 30)]) none "" none none).1 = .error .invalidSplit ∧
    (Expense.mk "" 100 "USD" "exact" [("A", 70), ("B", 30)] none).shares =
      [("A", (70:ℚ)), ("B", 30)].map (fun p => (p.1, round2 p.2)) := by
  refine ⟨⟨by decide, by decide⟩, ?_, ?_⟩
  · have hiff := (c6_exact_validation (addUser (addUser (mkGroup "USD") "A") "B")
      100 "exact" none ("A", 70) [("B", 30)] none "" none none
      (by decide) (by decide)).1
    rw [hiff]
    decide
  · exact (c6_exact_validation (addUser (addUser (mkGroup "USD") "A") "B")
      100 "exact" none ("A", 70) [("B", 30)] none "" none none
      (by decide) (by decide)).2
      ⟨"", 100, "USD", "exact", [("A", 70), ("B", 30)], none⟩
      ⟨"USD", [("A", 70), ("B", 30)],
        [⟨"", 100, "USD", "exact", [("A", 70), ("B", 30)], none⟩],
        [⟨none, none, 100, "USD", "Expense:  (exact)"⟩]⟩
      (by decide)

/-- Claim C7: for every successful equal or percentage split whose
individually rounded base shares do not already sum to the rounded total,
the entire leftover difference is added to the last participant in input
ordering (last element of the users list for `equal`; last entry of the
percentage mapping, in insertion order, for `percentage`), and every other
participant's share is its individually rounded value.  The percentage part
assumes the mapping's keys are distinct, as they are for a Python dict. -/
theorem c7_leftover_to_last :
    (∀ (g : Group) (a : ℚ) (st : String) (u : String) (us' : List String)
      (ex pc : Option (List (String × ℚ))) (d : String) (pb c : Option String)
      (e : Expense) (g' : Group),
      addExpense g a st (some (u :: us')) ex pc d pb c = (.ok e, g') →
      lowerString st = "equal" →
      sumVals (equalBase a (u :: us')) ≠ round2 a →
      dlookup ((u :: us').getLast (List.cons_ne_nil u us')) e.shares =
        some (round2 (a / (u :: us').length) +
          round2 (a - sumVals (equalBase a (u :: us')))) ∧
      (∀ w ∈ u :: us', w ≠ (u :: us').getLast (List.cons_ne_nil u us') →
        dlookup w e.shares = some (round2 (a / (u :: us').length)))) ∧
    (∀ (g : Group) (a : ℚ) (st : String) (us : Option (List String))
      (ex : Option (List (String × ℚ))) (p : String × ℚ) (ps : List (String × ℚ))
      (d : String) (pb c : Option String) (e : Expense) (g' : Group),
      addExpense g a st us ex (some (p :: ps)) d pb c = (.ok e, g') →
      lowerString st = "percentage" →
      ((p :: ps).map Prod.fst).Nodup →
      sumVals (pctBase a (p :: ps)) ≠ round2 a →
      dlookup ((p :: ps).getLast (List.cons_ne_nil p ps)).1 e.shares =
        some (round2 (a * (((p :: ps).getLast (List.cons_ne_nil p ps)).2 / 100)) +
          round2 (a - sumVals (pctBase a (p :: ps)))) ∧
      (∀ q ∈ p :: ps, q.1 ≠ ((p :: ps).getLast (List.cons_ne_nil p ps)).1 →
        dlookup q.1 e.shares = some (round2 (a * (q.2 / 100))))) := by
  constructor
  · intro g a st u us' ex pc d pb c e g' h hst hdiff
    obtain ⟨hcs, _⟩ := addExpense_ok_shares h
    rw [hst] at hcs
    have hshape := computeShares_equal_shape hcs hdiff
    rw [hshape]
    constructor
    · rw [dlookup_dmodify_self,
        equalBase_lookup (List.getLast_mem (List.cons_ne_nil u us'))]
      rfl
    · intro w hw hwne
      rw [dlookup_dmodify_ne hwne, equalBase_lookup hw]
  · intro g a st us ex p ps d pb c e g' h hst hnd hdiff
    obtain ⟨hcs, _⟩ := addExpense_ok_shares h
    rw [hst] at hcs
    have hshape := computeShares_pct_shape hcs hdiff
    rw [hshape, pctBase_eq_map hnd]
    constructor
    · rw [dlookup_dmodify_self,
        dlookup_map_fst _ hnd (List.getLast_mem (List.cons_ne_nil p ps))]
      rfl
    · intro q hq hqne
      rw [dlookup_dmodify_ne hqne, dlookup_map_fst _ hnd hq]

/-- Claim C7 witness: the spec's equal-split remainder example,
`allocate(100, "equal", [A,B,C])`: base shares `33.33` each, remainder
`0.01`, assigned to `C`, others untouched; and a percentage instance where
the last key absorbs a negative remainder. -/
theorem c7_leftover_to_last_witness :
    (sumVals (equalBase 100 ["A", "B", "C"]) ≠ round2 100 ∧
      dlookup "C" (Expense.mk "" 100 "USD" "equal"
          [("A", 3333/100), ("B", 3333/100), ("C", 1667/50)] none).shares =
        some (round2 (100 / (3:ℕ)) + round2 (100 - sumVals (equalBase 100 ["A", "B", "C"]))) ∧
      dlookup "A" (Expense.mk "" 100 "USD" "equal"
          [("A", 3333/100), ("B", 3333/100), ("C", 1667/50)] none).shares =
        some (round2 (100 / (3:ℕ)))) ∧
    (sumVals (pctBase (1/100) [("A", 50), ("B", 50)]) ≠ round2 (1/100) ∧
      dlookup "B" (Expense.mk "" (1/100) "USD" "percentage"
          [("A", 1/100), ("B", 0)] none).shares =
        some (round2 ((1:ℚ)/100 * (50 / 100)) +
          round2 (1/100 - sumVals (pctBase (1/100) [("A", 50), ("B", 50)]))) ∧
      dlookup "A" (Expense.mk "" (1/100) "USD" "percentage"
          [("A", 1/100), ("B", 0)] none).shares =
        some (round2 ((1:ℚ)/100 * (50 / 100)))) := by
  have heq : addExpense (addUser (addUser (addUser (mkGroup "USD") "A") "B") "C")
      100 "equal" (some ["A", "B", "C"]) none none "" none none =
      (.ok ⟨"", 100, "USD", "equal",
          [("A", 3333/100), ("B", 3333/100), ("C", 1667/50)], none⟩,
        ⟨"USD", [("A", 3333/100), ("B", 3333/100), ("C", 1667/50)],
          [⟨"", 100, "USD", "equal",
            [("A", 3333/100), ("B", 3333/100), ("C", 1667/50)], none⟩],
          [⟨none, none, 100, "USD", "Expense:  (equal)"⟩]⟩) := by decide
  have hpq : addExpense (addUser (addUser (mkGroup "USD") "A") "B")
      (1/100) "percentage" none none (some [("A", 50), ("B", 50)]) "" none none =
      (.ok ⟨"", 1/100, "USD", "percentage", [("A", 1/100), ("B", 0)], none⟩,
        ⟨"USD", [("A", 1/100), ("B", 0)],
          [⟨"", 1/100, "USD", "percentage", [("A", 1/100), ("B", 0)], none⟩],
          [⟨none, none, 1/100, "USD", "Expense:  (percentage)"⟩]⟩) := by decide
  have h1 := c7_leftover_to_last.1
    (addUser (addUser (addUser (mkGroup "USD") "A") "B") "C") 100 "equal"
    "A" ["B", "C"] none none "" none none
    ⟨"", 100, "USD", "equal",
      [("A", 3333/100), ("B", 3333/100), ("C", 1667/50)], none⟩
    ⟨"USD", [("A", 3333/100), ("B", 3333/100), ("C", 1667/50)],
      [⟨"", 100, "USD", "equal",
        [("A", 3333/100), ("B", 3333/100), ("C", 1667/50)], none⟩],
      [⟨none, none, 100, "USD", "Expense:  (equal)"⟩]⟩
    heq (by decide) (by decide)
  have h2 := c7_leftover_to_last.2
    (addUser (addUser (mkGroup "USD") "A") "B") (1/100) "percentage"
    none none ("A", 50) [("B", 50)] "" none none
    ⟨"", 1/100, "USD", "percentage", [("A", 1/100), ("B", 0)], none⟩
    ⟨"USD", [("A", 1/100), ("B", 0)],
      [⟨"", 1/100, "USD", "percentage", [("A", 1/100), ("B", 0)], none⟩],
      [⟨none, none, 1/100, "USD", "Expense:  (percentage)"⟩]⟩
    hpq (by decide) (by decide) (by decide)
  exact ⟨⟨by decide, h1.1, h1.2 "A" (by decide) (by decide)⟩,
    ⟨by decide, h2.1, h2.2 ("A", 50) (by decide) (by decide)⟩⟩

/-- Claim C10: every stored balance is always a 2-decimal-rounded value —
starting from a fresh group, after any sequence of `add_user`,
`add_expense`, `settle_debt` and `simplify_debts` calls (including ones
that raised errors, whose partial mutations are also only rounded writes),
every user's balance satisfies `round2 b = b`, because every write to a
balance passes through 2-decimal rounding. -/
theorem c10_balances_two_decimal (cur : String) (ops : List Op) :
    ∀ p ∈ (applyOps (mkGroup cur) ops).users, round2 p.2 = p.2 := by
  intro p hp
  exact applyOps_dec2 ops (mkGroup cur) (by simp [mkGroup]) p hp

/-- Claim C10 witness: after adding a user and an equal-split expense of
`95.239`, the stored balance is the rounded `95.24`, a fixed point of
`round2`. -/
theorem c10_balances_two_decimal_witness :
    ("a", (2381:ℚ)/25) ∈
      (applyOps (mkGroup "USD")
        [Op.addUser "a",
         Op.addExpense (95239/1000) "equal" (some ["a"]) none none "" none none]).users ∧
    round2 ((2381:ℚ)/25) = (2381:ℚ)/25 :=
  ⟨by decide,
    c10_balances_two_decimal "USD"
      [Op.addUser "a",
       Op.addExpense (95239/1000) "equal" (some ["a"]) none none "" none none]
      ("a", (2381:ℚ)/25) (by decide)⟩

/-- Claim C8: whenever `simplify_debts` emits at least one transfer, it
emits at most (number of users with positive rounded balance) + (number of
users with negative rounded balance) − 1 transfers: each loop iteration
retires at least one debtor or creditor entry. -/
theorem c8_transfer_count (g : Group) (h : 1 ≤ (simplifyDebts g).1.length) :
    ((simplifyDebts g).1.length : ℤ) ≤
      (debtorsOf g).length + (creditorsOf g).length - 1 := by
  have hD : GoodEntries ((debtorsOf g).insertionSort magGE) :=
    goodEntries_of_perm (List.perm_insertionSort _ _) (goodEntries_debtorsOf g)
  have hC : GoodEntries ((creditorsOf g).insertionSort magGE) :=
    goodEntries_of_perm (List.perm_insertionSort _ _) (goodEntries_creditorsOf g)
  have hlenD : ((debtorsOf g).insertionSort magGE).length = (debtorsOf g).length :=
    (List.perm_insertionSort _ _).length_eq
  have hlenC : ((creditorsOf g).insertionSort magGE).length = (creditorsOf g).length :=
    (List.perm_insertionSort _ _).length_eq
  have hloop := simplifyLoop_length g.currency
    (((debtorsOf g).insertionSort magGE).length + ((creditorsOf g).insertionSort magGE).length)
    ((debtorsOf g).insertionSort magGE) ((creditorsOf g).insertionSort magGE) g.users hD hC
  have hres : (simplifyDebts g).1 =
      (simplifyLoop g.currency
        (((debtorsOf g).insertionSort magGE).length +
          ((creditorsOf g).insertionSort magGE).length)
        ((debtorsOf g).insertionSort magGE) ((creditorsOf g).insertionSort magGE)
        g.users).1 := rfl
  rw [hres] at h ⊢
  rw [hlenD, hlenC] at h ⊢
  have hDne : (debtorsOf g).length ≠ 0 := by
    intro h0
    have hnil : (debtorsOf g).insertionSort magGE = [] := by
      have := hlenD.trans h0
      exact List.length_eq_zero.mp this
    rw [hnil, simplifyLoop_nil_left] at h
    simp at h
  have hCne : (creditorsOf g).length ≠ 0 := by
    intro h0
    have hnil : (creditorsOf g).insertionSort magGE = [] := by
      have := hlenC.trans h0
      exact List.length_eq_zero.mp this
    rw [hnil, simplifyLoop_nil_right] at h
    simp at h
  rw [hlenD, hlenC] at hloop
  omega

/-- Claim C8 witness: with one debtor and one creditor, one transfer is
emitted: `1 ≤ 1` and `1 ≤ 1 + 1 - 1`. -/
theorem c8_transfer_count_witness :
    1 ≤ (simplifyDebts ⟨"USD", [("A", 5), ("B", -5)], [], []⟩).1.length ∧
    ((simplifyDebts ⟨"USD", [("A", 5), ("B", -5)], [], []⟩).1.length : ℤ) ≤
      (debtorsOf ⟨"USD", [("A", 5), ("B", -5)], [], []⟩).length +
      (creditorsOf ⟨"USD", [("A", 5), ("B", -5)], [], []⟩).length - 1 :=
  ⟨by decide, c8_transfer_count ⟨"USD", [("A", 5), ("B", -5)], [], []⟩ (by decide)⟩

set_option maxHeartbeats 1000000 in
/-- Claim C2: on any group state of the program (user ids distinct, every
stored balance a 2-decimal value — the invariant of C10) in which the total
magnitude of positive rounded balances equals the total magnitude of
negative rounded balances, `simplify_debts` drives every user balance that
was non-zero at the start of the call to exactly zero. -/
theorem c2_simplify_zeroes (g : Group)
    (hnd : (g.users.map Prod.fst).Nodup)
    (hdec : ∀ p ∈ g.users, Dec2 p.2)
    (hbal : sumVals (debtorsOf g) = sumVals (creditorsOf g)) :
    ∀ p ∈ g.users, p.2 ≠ 0 → dlookup p.1 (simplifyDebts g).2.users = some 0 := by
  have hpermD := List.perm_insertionSort magGE (debtorsOf g)
  have hpermC := List.perm_insertionSort magGE (creditorsOf g)
  have hD : GoodEntries ((debtorsOf g).insertionSort magGE) :=
    goodEntries_of_perm hpermD (goodEntries_debtorsOf g)
  have hC : GoodEntries ((creditorsOf g).insertionSort magGE) :=
    goodEntries_of_perm hpermC (goodEntries_creditorsOf g)
  have hndDC := keys_nodup_debtors_creditors g hnd
  have hpermKeys : List.Perm
      (((debtorsOf g).insertionSort magGE ++
        (creditorsOf g).insertionSort magGE).map Prod.fst)
      ((debtorsOf g ++ creditorsOf g).map Prod.fst) :=
    List.Perm.map Prod.fst (List.Perm.append hpermD hpermC)
  have hndSorted := (List.Perm.nodup_iff hpermKeys).mpr hndDC
  have hlD : ∀ p ∈ (debtorsOf g).insertionSort magGE,
      dlookup p.1 g.users = some p.2 := by
    intro p hp
    have hp' : p ∈ debtorsOf g := hpermD.mem_iff.mp hp
    obtain ⟨q, hq, hfq⟩ := List.mem_filterMap.mp hp'
    obtain ⟨u, b⟩ := q
    by_cases hpos : 0 < round2 b
    · rw [if_pos hpos] at hfq
      simp only [Option.some.injEq] at hfq
      rw [← hfq]
      dsimp only
      rw [hdec _ hq]
      exact dlookup_eq_of_mem_nodup hnd hq
    · rw [if_neg hpos] at hfq
      exact absurd hfq (by simp)
  have hlC : ∀ p ∈ (creditorsOf g).insertionSort magGE,
      dlookup p.1 g.users = some (-p.2) := by
    intro p hp
    have hp' : p ∈ creditorsOf g := hpermC.mem_iff.mp hp
    obtain ⟨q, hq, hfq⟩ := List.mem_filterMap.mp hp'
    obtain ⟨u, b⟩ := q
    by_cases hneg : round2 b < 0
    · rw [if_pos hneg] at hfq
      simp only [Option.some.injEq] at hfq
      rw [← hfq]
      dsimp only
      rw [neg_neg, hdec _ hq]
      exact dlookup_eq_of_mem_nodup hnd hq
    · rw [if_neg hneg] at hfq
      exact absurd hfq (by simp)
  have hsumD : sumVals ((debtorsOf g).insertionSort magGE) = sumVals (debtorsOf g) :=
    List.Perm.sum_eq (List.Perm.map Prod.snd hpermD)
  have hsumC : sumVals ((creditorsOf g).insertionSort magGE) = sumVals (creditorsOf g) :=
    List.Perm.sum_eq (List.Perm.map Prod.snd hpermC)
  obtain ⟨hz, hu⟩ := simplifyLoop_settles g.currency
    (((debtorsOf g).insertionSort magGE).length +
      ((creditorsOf g).insertionSort magGE).length)
    ((debtorsOf g).insertionSort magGE) ((creditorsOf g).insertionSort magGE)
    g.users hD hC hndSorted hlD hlC
    (by rw [hsumD, hsumC]; exact hbal) (le_refl _)
  intro p hp hpne
  obtain ⟨u, b⟩ := p
  have hb : round2 b = b := hdec _ hp
  rcases lt_trichotomy b 0 with hlt | heq | hgt
  · have hmem : (u, -b) ∈ creditorsOf g := by
      refine List.mem_filterMap.mpr ⟨(u, b), hp, ?_⟩
      dsimp only
      rw [hb, if_pos hlt]
    have hmem' : (u, -b) ∈ (creditorsOf g).insertionSort magGE :=
      hpermC.mem_iff.mpr hmem
    exact hz (u, -b) (List.mem_append.mpr (Or.inr hmem'))
  · exact absurd heq hpne
  · have hmem : (u, b) ∈ debtorsOf g := by
      refine List.mem_filterMap.mpr ⟨(u, b), hp, ?_⟩
      dsimp only
      rw [hb, if_pos hgt]
    have hmem' : (u, b) ∈ (debtorsOf g).insertionSort magGE :=
      hpermD.mem_iff.mpr hmem
    exact hz (u, b) (List.mem_append.mpr (Or.inl hmem'))

/-- Claim C2 witness: balances `{A: 5, B: -5}` (balanced totals); after
simplification both balances are exactly zero. -/
theorem c2_simplify_zeroes_witness :
    (((Group.mk "USD" [("A", 5), ("B", -5)] [] []).users.map Prod.fst).Nodup ∧
      sumVals (debtorsOf ⟨"USD", [("A", 5), ("B", -5)], [], []⟩) =
        sumVals (creditorsOf ⟨"USD", [("A", 5), ("B", -5)], [], []⟩)) ∧
    dlookup "A" (simplifyDebts ⟨"USD", [("A", 5), ("B", -5)], [], []⟩).2.users = some 0 ∧
    dlookup "B" (simplifyDebts ⟨"USD", [("A", 5), ("B", -5)], [], []⟩).2.users = some 0 :=
  ⟨⟨by decide, by decide⟩,
    c2_simplify_zeroes ⟨"USD", [("A", 5), ("B", -5)], [], []⟩ (by decide) (by decide)
      (by decide) ("A", 5) (by decide) (by norm_num),
    c2_simplify_zeroes ⟨"USD", [("A", 5), ("B", -5)], [], []⟩ (by decide) (by decide)
      (by decide) ("B", -5) (by decide) (by norm_num)⟩

end ExpenseSplit
